import Mathlib

/-!
Verification of the markdown rendering core (crates/markdown/src/markdown.rs).

This file gives a shallow embedding of the data model and operations of the
markdown view: the selection state machine, the single-flight reparse
scheduler, the per-line source/rendered offset maps with their binary-search
lookups, and the element builder that folds the parsed event stream into
rendered lines, links and styled containers.  Machine integers (usize) are
modelled as Nat; operations that can panic in Rust (slice indexing, unwrap,
usize underflow in debug builds) return Option, with none standing for a
panic.  Rust strings are modelled as List Char; all concrete inputs used in
the theorems are ASCII, where byte offsets and character offsets coincide.
-/

namespace MarkdownCore

/-! ## Selection (markdown.rs, struct Selection) -/

structure Selection where
  start : Nat
  stop : Nat
  reversed : Bool
  pending : Bool
  deriving Repr, DecidableEq

/-- Rust: Selection::default() (all fields zero/false). -/
def Selection.defaultSel : Selection :=
  { start := 0, stop := 0, reversed := false, pending := false }

/-- Rust: Selection::tail. -/
def Selection.tail (s : Selection) : Nat :=
  if s.reversed then s.stop else s.start

/-- Rust: Selection::set_head.  The field named end in Rust is called stop
here because end is a Lean keyword.  Each branch composes the Rust field
mutations into a single record update (in the first branch the Rust code
first copies start into end and sets reversed, then overwrites start). -/
def Selection.set_head (s : Selection) (head : Nat) : Selection :=
  if head < s.tail then
    if !s.reversed then { s with stop := s.start, reversed := true, start := head }
    else { s with start := head }
  else
    if s.reversed then { s with start := s.stop, reversed := false, stop := head }
    else { s with stop := head }

/-- The edge of the selection that moves during a drag: start when reversed,
end otherwise (the complement of tail). -/
def Selection.movingEdge (s : Selection) : Nat :=
  if s.reversed then s.start else s.stop

/-! ## Parsed document and the reparse scheduler (struct Markdown) -/

/-- Half-open source byte range [fst, snd). -/
abbrev SrcRange := Nat × Nat

/-- Kind of a fenced/indented code block (parser::CodeBlockKind; the parser
crate is external to this file, only the constructors consumed by
markdown.rs are modelled). -/
inductive CodeBlockKind where
  | indented
  | fenced (language : String)
  deriving Repr, DecidableEq

/-- MarkdownTag: the Start-side tags matched by MarkdownElement::request_layout.
Variants of the external parser enum that fall into the catch-all arm of the
match are collapsed into the wildcard constructor. -/
inductive MarkdownTag where
  | paragraph
  | heading (level : Nat)
  | blockQuote
  | codeBlock (kind : CodeBlockKind)
  | htmlBlock
  | list (bulletIndex : Option Nat)
  | item
  | emphasis
  | strong
  | strikethrough
  | link (destUrl : String)
  | metadataBlock
  | wildcard (id : Nat)
  deriving Repr, DecidableEq

/-- MarkdownTagEnd: the End-side tags matched by request_layout. -/
inductive MarkdownTagEnd where
  | paragraph
  | heading
  | blockQuote
  | codeBlock
  | htmlBlock
  | list
  | item
  | emphasis
  | strong
  | strikethrough
  | link
  | wildcard (id : Nat)
  deriving Repr, DecidableEq

/-- MarkdownEvent, as consumed by request_layout. -/
inductive MdEvent where
  | start (tag : MarkdownTag)
  | stop (tag : MarkdownTagEnd)
  | text
  | code
  | html
  | inlineHtml
  | rule
  | softBreak
  | hardBreak
  | wildcard (id : Nat)
  deriving Repr, DecidableEq

/-- ParsedMarkdown: immutable snapshot of a parse result. -/
structure ParsedMarkdown where
  source : List Char
  events : List (SrcRange × MdEvent)
  deriving Repr, DecidableEq

/-- Rust: ParsedMarkdown::default(). -/
def ParsedMarkdown.defaultPM : ParsedMarkdown :=
  { source := [], events := [] }

/-- The in-flight background parse task, identified by the snapshot of the
source text it was spawned over. -/
structure PendingTask where
  text : List Char
  deriving Repr, DecidableEq

/-- The scheduler-relevant state of struct Markdown.  spawnCount is a ghost
counter incremented whenever a parse task is spawned; it does not influence
any transition and exists to express the single-flight property. -/
structure MarkdownState where
  source : List Char
  selection : Selection
  autoscrollRequest : Option Nat
  parsedMarkdown : ParsedMarkdown
  shouldReparse : Bool
  pendingParse : Option PendingTask
  spawnCount : Nat
  deriving Repr, DecidableEq

/-- Rust: Markdown::parse.  Empty source returns early; a pending task makes
the call only set should_reparse; otherwise the flag is cleared and one task
over a snapshot of the current source is recorded. -/
def Markdown.parse (st : MarkdownState) : MarkdownState :=
  if st.source = [] then st
  else if st.pendingParse.isSome then { st with shouldReparse := true }
  else
    { st with
      shouldReparse := false
      pendingParse := some { text := st.source }
      spawnCount := st.spawnCount + 1 }

/-- Rust: Markdown::new (the scheduler-relevant fields, followed by parse). -/
def Markdown.new (source : List Char) : MarkdownState :=
  Markdown.parse
    { source := source
      selection := Selection.defaultSel
      autoscrollRequest := none
      parsedMarkdown := ParsedMarkdown.defaultPM
      shouldReparse := false
      pendingParse := none
      spawnCount := 0 }

/-- Rust: Markdown::append. -/
def Markdown.append (st : MarkdownState) (t : List Char) : MarkdownState :=
  Markdown.parse { st with source := st.source ++ t }

/-- Rust: Markdown::reset. -/
def Markdown.reset (st : MarkdownState) (source : List Char) : MarkdownState :=
  if source = st.source then st
  else
    Markdown.parse
      { st with
        source := source
        selection := Selection.defaultSel
        autoscrollRequest := none
        pendingParse := none
        shouldReparse := false
        parsedMarkdown := ParsedMarkdown.defaultPM }

/-- Completion of the in-flight parse task (the body of the foreground task
spawned in Markdown::parse): install the parsed document produced from the
snapshot text, take pending_parse, then re-enter parse when should_reparse
was set.  parseFn abstracts the external parser (parse_markdown or
parse_links_only).  When no task is pending the completion cannot fire. -/
def Markdown.complete (parseFn : List Char → List (SrcRange × MdEvent))
    (st : MarkdownState) : MarkdownState :=
  match st.pendingParse with
  | none => st
  | some t =>
    let st1 := { st with
      parsedMarkdown := { source := t.text, events := parseFn t.text }
      pendingParse := none }
    if st1.shouldReparse then Markdown.parse st1 else st1

/-! ## Per-line offset maps (struct SourceMapping, struct RenderedLine) -/

/-- One correspondence point between the rendered and the source offset
space (markdown.rs, struct SourceMapping). -/
structure SourceMapping where
  rendered_index : Nat
  source_index : Nat
  deriving Repr, DecidableEq

/-- The contract of Rust slice::binary_search_by_key on a slice sorted by
the key: inl ix when the target key occurs at index ix, otherwise inr of the
insertion index (the number of keys smaller than the target).  On a strictly
sorted slice this determines the Rust result uniquely; on unsorted input the
Rust result is unspecified and this function is one admissible refinement. -/
def rustBinarySearch (keys : List Nat) (target : Nat) : Sum Nat Nat :=
  let ix := keys.countP (fun k => decide (k < target))
  match keys.get? ix with
  | some k => if k = target then Sum.inl ix else Sum.inr ix
  | none => Sum.inr ix

/-- The shared shape of the two per-line lookups: binary-search the mapping
table by a key projection; on a hit take that entry, on a miss take the
entry before the insertion point.  none models the Rust panic
(source_mappings[ix - 1] with ix = 0 underflows the index). -/
def pickMapping (ms : List SourceMapping) (keyf : SourceMapping → Nat) (target : Nat) :
    Option SourceMapping :=
  match rustBinarySearch (ms.map keyf) target with
  | Sum.inl ix => ms.get? ix
  | Sum.inr ix => if ix = 0 then none else ms.get? (ix - 1)

/-- A rendered line (markdown.rs, struct RenderedLine).  The Rust layout
field (shaped text) is modelled by the text it was shaped from, which is all
the offset queries consult (layout.text()). -/
structure RenderedLine where
  text : List Char
  source_mappings : List SourceMapping
  source_end : Nat
  deriving Repr, DecidableEq

/-- Rust: RenderedLine::rendered_index_for_source_index. -/
def RenderedLine.rendered_index_for_source_index (line : RenderedLine)
    (source_index : Nat) : Option Nat :=
  (pickMapping line.source_mappings (fun m => m.source_index) source_index).map
    (fun m => m.rendered_index + (source_index - m.source_index))

/-- Rust: RenderedLine::source_index_for_rendered_index. -/
def RenderedLine.source_index_for_rendered_index (line : RenderedLine)
    (rendered_index : Nat) : Option Nat :=
  (pickMapping line.source_mappings (fun m => m.rendered_index) rendered_index).map
    (fun m => m.source_index + (rendered_index - m.rendered_index))

/-! ## RenderedText and its queries -/

/-- A hyperlink span (markdown.rs, struct RenderedLink). -/
structure RenderedLink where
  source_range : SrcRange
  destination_url : String
  deriving Repr, DecidableEq

/-- The whole-document index (markdown.rs, struct RenderedText); geometry
queries (positions in pixels) are out of scope, the offset-based queries are
modelled in full. -/
structure RenderedText where
  lines : List RenderedLine
  links : List RenderedLink
  deriving Repr, DecidableEq

/-- Rust str::find(' ') on a character list: index of the first space. -/
def findSpaceIdx : List Char → Option Nat
  | [] => none
  | c :: cs =>
    if c = Char.ofNat 32 then some 0 else (findSpaceIdx cs).map (fun i => i + 1)

/-- Rust str::rfind(' ') on a character list: index of the last space. -/
def rfindSpaceIdx : List Char → Option Nat
  | [] => none
  | c :: cs =>
    match rfindSpaceIdx cs with
    | some j => some (j + 1)
    | none => if c = Char.ofNat 32 then some 0 else none

/-- The previous_space computation of surrounding_word_range: one past the
last space before idx, or 0. -/
def previousSpaceIdx (text : List Char) (idx : Nat) : Nat :=
  match rfindSpaceIdx (text.take idx) with
  | some i => i + 1
  | none => 0

/-- The next_space computation of surrounding_word_range: the first space at
or after idx, or the text length. -/
def nextSpaceIdx (text : List Char) (idx : Nat) : Nat :=
  match findSpaceIdx (text.drop idx) with
  | some j => idx + j
  | none => text.length

/-- The per-line body of RenderedText::surrounding_word_range: translate the
source offset into the line, scan to the surrounding spaces in rendered
text, map both boundaries back.  none models the panics reachable in the
Rust code: first().unwrap() on an empty table, the [ix - 1] underflow inside
rendered_index_for_source_index, and slicing text beyond its length. -/
def wordRangeInLine (line : RenderedLine) (source_index : Nat) : Option (Nat × Nat) := do
  let firstMapping ← line.source_mappings.head?
  let lineRenderedStart := firstMapping.rendered_index
  let ri ← line.rendered_index_for_source_index source_index
  let idx := ri - lineRenderedStart
  if idx ≤ line.text.length then
    let a ← line.source_index_for_rendered_index
      (lineRenderedStart + previousSpaceIdx line.text idx)
    let b ← line.source_index_for_rendered_index
      (lineRenderedStart + nextSpaceIdx line.text idx)
    some (a, b)
  else none

/-- Loop of RenderedText::surrounding_word_range over the line list: skip
lines whose source_end is before the query, fall back to the degenerate
range when no line matches. -/
def surroundingWordRangeGo (source_index : Nat) : List RenderedLine → Option (Nat × Nat)
  | [] => some (source_index, source_index)
  | line :: rest =>
    if source_index > line.source_end then surroundingWordRangeGo source_index rest
    else wordRangeInLine line source_index

/-- Rust: RenderedText::surrounding_word_range. -/
def RenderedText.surrounding_word_range (t : RenderedText) (source_index : Nat) :
    Option (Nat × Nat) :=
  surroundingWordRangeGo source_index t.lines

/-- Loop of RenderedText::surrounding_line_range. -/
def surroundingLineRangeGo (source_index : Nat) : List RenderedLine → Option (Nat × Nat)
  | [] => some (source_index, source_index)
  | line :: rest =>
    if source_index > line.source_end then surroundingLineRangeGo source_index rest
    else
      match line.source_mappings.head? with
      | none => none
      | some firstMapping => some (firstMapping.source_index, line.source_end)

/-- Rust: RenderedText::surrounding_line_range. -/
def RenderedText.surrounding_line_range (t : RenderedText) (source_index : Nat) :
    Option (Nat × Nat) :=
  surroundingLineRangeGo source_index t.lines

/-- Loop of RenderedText::text_for_range: collect the rendered substring of
every line whose source extent intersects the range, stopping at the first
line that starts after the range.  none models the Rust panics
(first().unwrap(), the lookup underflow, slicing with start beyond end). -/
def textForRangeGo (range : SrcRange) : List RenderedLine → Option (List (List Char))
  | [] => some []
  | line :: rest =>
    if range.1 > line.source_end then textForRangeGo range rest
    else
      match line.source_mappings.head? with
      | none => none
      | some firstMapping =>
        if range.2 < firstMapping.source_index then some []
        else do
          let s ← if range.1 < firstMapping.source_index then some 0
                  else line.rendered_index_for_source_index range.1
          let e0 ← if range.2 > line.source_end then
                     line.rendered_index_for_source_index line.source_end
                   else
                     line.rendered_index_for_source_index range.2
          let e := min e0 line.text.length
          if s ≤ e then
            let restOut ← textForRangeGo range rest
            some (((line.text.drop s).take (e - s)) :: restOut)
          else none

/-- Rust: RenderedText::text_for_range (the copied lines joined by a single
newline). -/
def RenderedText.text_for_range (t : RenderedText) (range : SrcRange) :
    Option (List Char) :=
  (textForRangeGo range t.lines).map (fun segs => List.intercalate [Char.ofNat 10] segs)

/-- Rust: Markdown::copy — empty or inverted selections copy nothing,
otherwise the rendered text of start..end is produced.  Only start and stop
are consulted. -/
def Markdown.copyText (sel : Selection) (t : RenderedText) : Option (List Char) :=
  if sel.stop ≤ sel.start then none
  else t.text_for_range (sel.start, sel.stop)

/-- The selection installed by a mouse press (paint_mouse_listeners,
MouseDownEvent bubble phase, non-link case): click count 2 selects the
surrounding word, 3 the surrounding line, anything else a zero-width range;
reversed is false and pending is true. -/
def pressSelection (t : RenderedText) (source_index : Nat) (clickCount : Nat) :
    Option Selection := do
  let range ←
    if clickCount = 2 then t.surrounding_word_range source_index
    else if clickCount = 3 then t.surrounding_line_range source_index
    else some (source_index, source_index)
  some { start := range.1, stop := range.2, reversed := false, pending := true }

/-- The MouseUpEvent handler clears pending. -/
def releaseSelection (s : Selection) : Selection :=
  { s with pending := false }

/-! ## The element builder (struct MarkdownElementBuilder)

Divs are modelled by the two style fields the claims observe, the outer
margins; children, padding, borders and text sizing are presentation data no
claim consults and are not recorded.  Rust Vec stacks are Lean lists with
the top (Vec last) at the head. -/

/-- A gpui length as used for the margins in request_layout: px or rems. -/
inductive Length where
  | px (value : ℚ)
  | rems (value : ℚ)
  deriving Repr, DecidableEq

/-- The margin part of a div's style. -/
structure Div where
  margin_top : Option Length := none
  margin_bottom : Option Length := none
  deriving Repr, DecidableEq

/-- A text style refinement.  italic, bold and strikethrough are the
refinements request_layout constructs inline; styleValue stands for the
opaque refinement values carried by MarkdownStyle (link, inline code, block
quote, heading and code-block text styles), whose content no claim
observes.  styleValue 0 plays the role of TextStyleRefinement::default(). -/
inductive TextStyleRefinement where
  | italic
  | bold
  | strikethroughStyle
  | styleValue (id : Nat)
  deriving Repr, DecidableEq

/-- A block StyleRefinement (the fields of gpui StyleRefinement consumed by
request_layout: margins and the optional text style). -/
structure StyleRefinement where
  margin_top : Option Length := none
  margin_bottom : Option Length := none
  text : Option TextStyleRefinement := none
  deriving Repr, DecidableEq

/-- gpui Refineable::refine restricted to the margin edges: a some field of
the refinement overrides, a none field keeps the current value. -/
def Div.refine (d : Div) (r : StyleRefinement) : Div :=
  { margin_top :=
      match r.margin_top with
      | some v => some v
      | none => d.margin_top
    margin_bottom :=
      match r.margin_bottom with
      | some v => some v
      | none => d.margin_bottom }

/-- The MarkdownStyle fields consumed by request_layout. -/
structure MarkStyle where
  code_block : StyleRefinement := {}
  inline_code : TextStyleRefinement := TextStyleRefinement.styleValue 1
  block_quote : TextStyleRefinement := TextStyleRefinement.styleValue 2
  link : TextStyleRefinement := TextStyleRefinement.styleValue 3
  heading : StyleRefinement := {}
  break_style : StyleRefinement := {}

/-- An external syntax-highlighting language: its highlight_text output for
a text, as a list of ((start, stop), highlight id) in text order.  The
syntax-theme resolution of the id to a concrete style is not modelled. -/
structure Language where
  highlight : List Char → List ((Nat × Nat) × Nat)

/-- One styled run of a pending line (gpui TextRun): its byte length, the
refinement stack it was created under and the syntax highlight, if any. -/
structure TextRun where
  len : Nat
  styleStack : List TextStyleRefinement
  highlightId : Option Nat

/-- The pending line accumulator (markdown.rs, struct PendingLine). -/
structure PendingLine where
  text : List Char := []
  runs : List TextRun := []
  source_mappings : List SourceMapping := []

/-- markdown.rs, struct ListStackEntry. -/
structure ListStackEntry where
  bullet_index : Option Nat

/-- The builder state (markdown.rs, struct MarkdownElementBuilder).  The
base text style and syntax theme fields are opaque presentation values and
are left implicit in the run model. -/
structure MarkdownElementBuilder where
  div_stack : List Div
  rendered_lines : List RenderedLine
  pending_line : PendingLine
  rendered_links : List RenderedLink
  current_source_index : Nat
  text_style_stack : List TextStyleRefinement
  code_block_stack : List (Option Language)
  list_stack : List ListStackEntry

/-- Rust: MarkdownElementBuilder::new (one root div on the stack). -/
def MarkdownElementBuilder.new : MarkdownElementBuilder :=
  { div_stack := [{}]
    rendered_lines := []
    pending_line := {}
    rendered_links := []
    current_source_index := 0
    text_style_stack := []
    code_block_stack := []
    list_stack := [] }

namespace MarkdownElementBuilder

def push_text_style (b : MarkdownElementBuilder) (s : TextStyleRefinement) :
    MarkdownElementBuilder :=
  { b with text_style_stack := s :: b.text_style_stack }

/-- Vec::pop on the style stack (no panic on empty). -/
def pop_text_style (b : MarkdownElementBuilder) : MarkdownElementBuilder :=
  { b with text_style_stack := b.text_style_stack.tail }

/-- Rust: MarkdownElementBuilder::flush_text.  The pending line is taken
unconditionally; a non-empty line is closed into a RenderedLine whose
source_end is the running source cursor.  Appending the shaped text as a
child of the top div is not recorded (children are unmodelled) but its
panic on an empty div stack is. -/
def flush_text (b : MarkdownElementBuilder) : Option MarkdownElementBuilder :=
  let line := b.pending_line
  let b := { b with pending_line := {} }
  if line.text = [] then some b
  else
    match b.div_stack with
    | [] => none
    | _ :: _ =>
      some { b with rendered_lines := b.rendered_lines ++
        [{ text := line.text
           source_mappings := line.source_mappings
           source_end := b.current_source_index }] }

/-- The two boundary refinements applied inside push_div: a range starting
at offset 0 gets its top margin refined to px 0, a range ending at
markdown_end gets its bottom margin refined to rems 0. -/
def boundaryRefine (d : Div) (range : SrcRange) (markdown_end : Nat) : Div :=
  let d := if range.1 = 0 then d.refine { margin_top := some (Length.px 0) } else d
  if range.2 = markdown_end then d.refine { margin_bottom := some (Length.rems 0) } else d

/-- Rust: MarkdownElementBuilder::push_div. -/
def push_div (b : MarkdownElementBuilder) (d : Div) (range : SrcRange)
    (markdown_end : Nat) : Option MarkdownElementBuilder := do
  let b ← b.flush_text
  some { b with div_stack := boundaryRefine d range markdown_end :: b.div_stack }

/-- Rust: MarkdownElementBuilder::pop_div (pop().unwrap() then
last_mut().unwrap(); either unwrap can panic). -/
def pop_div (b : MarkdownElementBuilder) : Option MarkdownElementBuilder := do
  let b ← b.flush_text
  match b.div_stack with
  | [] => none
  | _ :: rest =>
    match rest with
    | [] => none
    | _ :: _ => some { b with div_stack := rest }

def push_list (b : MarkdownElementBuilder) (bulletIndex : Option Nat) :
    MarkdownElementBuilder :=
  { b with list_stack := { bullet_index := bulletIndex } :: b.list_stack }

/-- Rust: MarkdownElementBuilder::next_bullet_index — returns the current
counter of the innermost ordered list and increments it. -/
def next_bullet_index (b : MarkdownElementBuilder) :
    Option Nat × MarkdownElementBuilder :=
  match b.list_stack with
  | [] => (none, b)
  | entry :: rest =>
    match entry.bullet_index with
    | none => (none, b)
    | some i => (some i, { b with list_stack := { bullet_index := some (i + 1) } :: rest })

def pop_list (b : MarkdownElementBuilder) : MarkdownElementBuilder :=
  { b with list_stack := b.list_stack.tail }

def push_code_block (b : MarkdownElementBuilder) (language : Option Language) :
    MarkdownElementBuilder :=
  { b with code_block_stack := language :: b.code_block_stack }

def pop_code_block (b : MarkdownElementBuilder) : MarkdownElementBuilder :=
  { b with code_block_stack := b.code_block_stack.tail }

def push_link (b : MarkdownElementBuilder) (destination_url : String)
    (source_range : SrcRange) : MarkdownElementBuilder :=
  { b with rendered_links := b.rendered_links ++
      [{ source_range := source_range, destination_url := destination_url }] }

/-- The run-splitting loop of push_text under an active language: each
highlight sub-range becomes a highlighted run, gaps get plain runs, and a
trailing gap closes the text.  Nat subtraction stands for the usize
arithmetic, which cannot underflow for in-order highlight output. -/
def hlRuns (stack : List TextStyleRefinement) (totalLen : Nat) :
    List ((Nat × Nat) × Nat) → Nat → List TextRun
  | [], offset =>
    if offset < totalLen then
      [{ len := totalLen - offset, styleStack := stack, highlightId := none }]
    else []
  | ((s, e), hid) :: rest, offset =>
    (if offset < s then [{ len := s - offset, styleStack := stack, highlightId := none }]
     else []) ++
    ({ len := e - s, styleStack := stack, highlightId := some hid } ::
      hlRuns stack totalLen rest e)

/-- Rust: MarkdownElementBuilder::push_text — record a SourceMapping at the
run start, extend the pending text, advance the source cursor, and append
the style runs (split by highlights when the innermost code block carries a
language). -/
def push_text (b : MarkdownElementBuilder) (t : List Char) (source_index : Nat) :
    MarkdownElementBuilder :=
  let pl := b.pending_line
  let mapping : SourceMapping :=
    { rendered_index := pl.text.length, source_index := source_index }
  let newRuns :=
    match b.code_block_stack.head? with
    | some (some language) => hlRuns b.text_style_stack t.length (language.highlight t) 0
    | _ => [{ len := t.length, styleStack := b.text_style_stack, highlightId := none }]
  { b with
    pending_line :=
      { text := pl.text ++ t
        runs := pl.runs ++ newRuns
        source_mappings := pl.source_mappings ++ [mapping] }
    current_source_index := source_index + t.length }

/-- Rust: MarkdownElementBuilder::trim_trailing_newline.  none models the
panics: last_mut().unwrap() on an empty run list and the usize underflows
of len -= 1 and current_source_index -= 1 (debug builds). -/
def trim_trailing_newline (b : MarkdownElementBuilder) :
    Option MarkdownElementBuilder :=
  if b.pending_line.text.getLast? = some (Char.ofNat 10) then
    match b.pending_line.runs.getLast? with
    | none => none
    | some r =>
      if r.len = 0 ∨ b.current_source_index = 0 then none
      else
        some { b with
          pending_line :=
            { b.pending_line with
              text := b.pending_line.text.dropLast
              runs := b.pending_line.runs.dropLast ++ [{ r with len := r.len - 1 }] }
          current_source_index := b.current_source_index - 1 }
  else some b

/-- Rust: MarkdownElementBuilder::build — flush, pop the root div (unwrap
can panic on an empty stack) and expose the rendered lines and links. -/
def build (b : MarkdownElementBuilder) : Option RenderedText := do
  let b ← b.flush_text
  match b.div_stack with
  | [] => none
  | _ :: _ => some { lines := b.rendered_lines, links := b.rendered_links }

end MarkdownElementBuilder

/-! ## The request_layout event loop (impl Element for MarkdownElement) -/

/-- The final offset of the document: the end of the last event's range, or
0 when there are no events (request_layout, markdown_end). -/
def markdownEnd (events : List (SrcRange × MdEvent)) : Nat :=
  match events.getLast? with
  | some last => last.1.2
  | none => 0

/-- Rust slice &source[range]: none models the panic on an inverted or
out-of-bounds range (char-boundary panics do not arise in the ASCII
model). -/
def sliceSource (source : List Char) (range : SrcRange) : Option (List Char) :=
  if range.1 ≤ range.2 ∧ range.2 ≤ source.length then
    some ((source.drop range.1).take (range.2 - range.1))
  else none

/-- The margin-bottom of 0.5 rems contributed by the mb_2 style helper
(gpui spacing scale), used by paragraph, heading and block-quote divs. -/
def mb2Div : Div := { margin_bottom := some (Length.rems (1 / 2)) }

/-- One step of the request_layout match over the event stream.  loadLang
abstracts MarkdownElement::load_language (the external language-registry
resolution); style carries the MarkdownStyle fields the loop consults.
none propagates the panics of the builder operations. -/
def processEvent (style : MarkStyle) (loadLang : String → Option Language)
    (source : List Char) (mdEnd : Nat) (b : MarkdownElementBuilder)
    (ev : SrcRange × MdEvent) : Option MarkdownElementBuilder :=
  let range := ev.1
  match ev.2 with
  | .start tag =>
    match tag with
    | .paragraph => b.push_div mb2Div range mdEnd
    | .heading _ =>
      let headingDiv := Div.refine mb2Div style.heading
      let b := b.push_text_style
        (style.heading.text.getD (TextStyleRefinement.styleValue 0))
      b.push_div headingDiv range mdEnd
    | .blockQuote =>
      let b := b.push_text_style style.block_quote
      b.push_div mb2Div range mdEnd
    | .codeBlock kind =>
      let language :=
        match kind with
        | .fenced lang => loadLang lang
        | .indented => none
      let d := Div.refine {} style.code_block
      let b :=
        match style.code_block.text with
        | some ts => b.push_text_style ts
        | none => b
      let b := b.push_code_block language
      b.push_div d range mdEnd
    | .htmlBlock => b.push_div {} range mdEnd
    | .list bulletIndex =>
      let b := b.push_list bulletIndex
      b.push_div {} range mdEnd
    | .item => do
      let b := (b.next_bullet_index).2
      let b ← b.push_div { margin_bottom := some (Length.rems (1 / 4)) } range mdEnd
      b.push_div {} range mdEnd
    | .emphasis => some (b.push_text_style TextStyleRefinement.italic)
    | .strong => some (b.push_text_style TextStyleRefinement.bold)
    | .strikethrough => some (b.push_text_style TextStyleRefinement.strikethroughStyle)
    | .link destUrl =>
      if b.code_block_stack.isEmpty then
        some ((b.push_link destUrl range).push_text_style style.link)
      else some b
    | .metadataBlock => some b
    | .wildcard _ => some b
  | .stop tag =>
    match tag with
    | .paragraph => b.pop_div
    | .heading => do
      let b ← b.pop_div
      some b.pop_text_style
    | .blockQuote => (b.pop_text_style).pop_div
    | .codeBlock => do
      let b ← b.trim_trailing_newline
      let b ← b.pop_div
      let b := b.pop_code_block
      match style.code_block.text with
      | some _ => some b.pop_text_style
      | none => some b
    | .htmlBlock => b.pop_div
    | .list => (b.pop_list).pop_div
    | .item => do
      let b ← b.pop_div
      b.pop_div
    | .emphasis => some b.pop_text_style
    | .strong => some b.pop_text_style
    | .strikethrough => some b.pop_text_style
    | .link => if b.code_block_stack.isEmpty then some b.pop_text_style else some b
    | .wildcard _ => some b
  | .text => do
    let t ← sliceSource source range
    some (b.push_text t range.1)
  | .code => do
    let b := b.push_text_style style.inline_code
    let t ← sliceSource source range
    some ((b.push_text t range.1).pop_text_style)
  | .html => do
    let t ← sliceSource source range
    some (b.push_text t range.1)
  | .inlineHtml => do
    let t ← sliceSource source range
    some (b.push_text t range.1)
  | .rule => do
    let b ← b.push_div
      { margin_top := some (Length.rems (1 / 2))
        margin_bottom := some (Length.rems (1 / 2)) } range mdEnd
    b.pop_div
  | .softBreak => some (b.push_text [Char.ofNat 32] range.1)
  | .hardBreak => do
    let b ← b.push_div (Div.refine {} style.break_style) range mdEnd
    b.pop_div
  | .wildcard _ => some b

/-- Rust: the request_layout loop followed by builder.build(): fold the
event stream over a fresh builder and close it into a RenderedText. -/
def requestLayout (style : MarkStyle) (loadLang : String → Option Language)
    (source : List Char) (events : List (SrcRange × MdEvent)) :
    Option RenderedText := do
  let b ← events.foldlM
    (processEvent style loadLang source (markdownEnd events))
    MarkdownElementBuilder.new
  b.build

/-! ## Reference definitions used only in the statements of theorems -/

/-- The links contributed by one event at a given code-block depth
(reference definition for claim C10, following the spec: a link records a
span only when it starts outside every code block). -/
def linkDelta (depth : Nat) (ev : SrcRange × MdEvent) : List RenderedLink :=
  match ev.2 with
  | .start (.link destUrl) =>
    if depth = 0 then [{ source_range := ev.1, destination_url := destUrl }] else []
  | _ => []

/-- Code-block depth tracking for one event (reference definition for claim
C10). -/
def depthStep (depth : Nat) (ev : SrcRange × MdEvent) : Nat :=
  match ev.2 with
  | .start (.codeBlock _) => depth + 1
  | .stop .codeBlock => depth - 1
  | _ => depth

/-- Modelled from the spec (reference definition for claim C10, written
from the spec's words, to be compared with the builder): the links of an
event stream that start while no code block is open. -/
def linksOutsideCodeBlocks (depth : Nat) : List (SrcRange × MdEvent) → List RenderedLink
  | [] => []
  | ev :: rest => linkDelta depth ev ++ linksOutsideCodeBlocks (depthStep depth ev) rest

/-- The entry a binary-search lookup resolves to on a sorted table: the last
entry whose key is at most the target (none when even the first key is
larger, the panic case).  Reference definition used to reason about
pickMapping. -/
def lastLE (keyf : SourceMapping → Nat) (target : Nat) :
    List SourceMapping → Option SourceMapping
  | [] => none
  | m :: ms => if keyf m ≤ target then some ((lastLE keyf target ms).getD m) else none

/-- The mapping table is strictly increasing in both offset spaces (the
data-model invariant the builder establishes: each push_text appends an
entry with a larger rendered and source index). -/
abbrev SortedMappings (ms : List SourceMapping) : Prop :=
  ms.Pairwise (fun a b => a.source_index < b.source_index ∧ a.rendered_index < b.rendered_index)

/-- Between consecutive entries the rendered space grows at most as fast as
the source space (each pushed run of n bytes covers at least n source
bytes), the 1:1-correspondence side condition of the spec. -/
abbrev GapBounded (ms : List SourceMapping) : Prop :=
  ms.Chain' (fun a b => b.rendered_index - a.rendered_index ≤ b.source_index - a.source_index)

/-- The per-line well-formedness the builder establishes for every flushed
line. -/
abbrev WellFormedLine (line : RenderedLine) : Prop :=
  line.source_mappings ≠ [] ∧
  SortedMappings line.source_mappings ∧
  GapBounded line.source_mappings ∧
  ∀ m ∈ line.source_mappings, m.source_index ≤ line.source_end

abbrev WellFormedText (t : RenderedText) : Prop :=
  ∀ line ∈ t.lines, WellFormedLine line

/-! ## Concrete sample data used by witnesses and counterexamples -/

/-- A well-formed single-line rendered text (one run for the source text
hello world at offsets 0..11). -/
def sampleLine : RenderedLine :=
  { text := String.toList ("hello world")
    source_mappings := [{ rendered_index := 0, source_index := 0 }]
    source_end := 11 }

def sampleText : RenderedText :=
  { lines := [sampleLine], links := [] }

/-- A line whose mapping table is non-empty and strictly increasing in both
fields while the rendered gap (1) is smaller than the source gap (5):
source offsets 1..4 fall between the two entries without a 1:1 rendered
counterpart. -/
def gapLine : RenderedLine :=
  { text := String.toList ("abc")
    source_mappings := [{ rendered_index := 0, source_index := 0 },
                        { rendered_index := 1, source_index := 5 }]
    source_end := 6 }

/-- A scheduler state with one parse task in flight over the source a. -/
def inFlightState : MarkdownState :=
  { source := String.toList ("a")
    selection := Selection.defaultSel
    autoscrollRequest := none
    parsedMarkdown := ParsedMarkdown.defaultPM
    shouldReparse := false
    pendingParse := some { text := String.toList ("a") }
    spawnCount := 1 }

/-- A builder holding a pending line that ends in a newline (as after the
text event of a fenced code block x plus newline). -/
def pendingNewlineBuilder : MarkdownElementBuilder :=
  { MarkdownElementBuilder.new with
    pending_line :=
      { text := String.toList ("x\n")
        runs := [{ len := 2, styleStack := [], highlightId := none }]
        source_mappings := [{ rendered_index := 0, source_index := 0 }] }
    current_source_index := 2 }

/-- A builder with one open (language-free) code block. -/
def inCodeBlockBuilder : MarkdownElementBuilder :=
  { MarkdownElementBuilder.new with code_block_stack := [none] }

/-- Source text of the fenced-code-block scenario of C6. -/
def fenceSource : List Char := String.toList ("```\ncode\n```")

/-- Event stream of the fenced-code-block scenario of C6 (as produced by the
external parser for fenceSource: the code block spans 0..12, its text event
covers the bytes of code plus the trailing newline, 4..9). -/
def fenceEvents : List (SrcRange × MdEvent) :=
  [((0, 12), MdEvent.start (MarkdownTag.codeBlock (CodeBlockKind.fenced (""))))
  , ((4, 9), MdEvent.text)
  , ((0, 12), MdEvent.stop MarkdownTagEnd.codeBlock)]

/-- Source text of the two-paragraph document of C4: a, blank line, b. -/
def twoParaSource : List Char := String.toList ("a\n\nb")

/-- Event stream of the two-paragraph document of C4 (as produced by the
external parser: paragraph a over 0..2 with text 0..1, paragraph b over
3..4 with text 3..4; offset 2 lies in the structural whitespace between the
two paragraphs). -/
def twoParaEvents : List (SrcRange × MdEvent) :=
  [((0, 2), MdEvent.start MarkdownTag.paragraph)
  , ((0, 1), MdEvent.text)
  , ((0, 2), MdEvent.stop MarkdownTagEnd.paragraph)
  , ((3, 4), MdEvent.start MarkdownTag.paragraph)
  , ((3, 4), MdEvent.text)
  , ((3, 4), MdEvent.stop MarkdownTagEnd.paragraph)]

/-- A one-event stream whose single rule spans the whole document 0..5. -/
def ruleEvents : List (SrcRange × MdEvent) := [((0, 5), MdEvent.rule)]

/-- The builder state reached after pushing a plain div for the range 0..5
of ruleEvents: both boundary margins suppressed. -/
def ruleBuilder : MarkdownElementBuilder :=
  { MarkdownElementBuilder.new with
    div_stack := [{ margin_top := some (Length.px 0)
                    margin_bottom := some (Length.rems 0) }, {}] }

/-- The rendered text produced for mixedLinkEvents: no lines, only the link
that started outside the code block. -/
def mixedLinkText : RenderedText :=
  { lines := [], links := [{ source_range := (13, 20), destination_url := "v" }] }

/-- An event stream with one link inside a code block and one outside. -/
def mixedLinkEvents : List (SrcRange × MdEvent) :=
  [((0, 12), MdEvent.start (MarkdownTag.codeBlock (CodeBlockKind.fenced (""))))
  , ((4, 9), MdEvent.start (MarkdownTag.link ("u")))
  , ((4, 9), MdEvent.stop MarkdownTagEnd.link)
  , ((0, 12), MdEvent.stop MarkdownTagEnd.codeBlock)
  , ((13, 20), MdEvent.start (MarkdownTag.link ("v")))
  , ((13, 20), MdEvent.stop MarkdownTagEnd.link)]

/-! # Theorems -/

/-! ## Selection: C2 and the Selection parts of C5 -/

theorem set_head_tail (s : Selection) (h : Nat) : (s.set_head h).tail = s.tail := by
  unfold Selection.set_head Selection.tail
  cases hr : s.reversed <;> split_ifs <;> simp_all

theorem set_head_movingEdge (s : Selection) (h : Nat) : (s.set_head h).movingEdge = h := by
  unfold Selection.set_head Selection.movingEdge Selection.tail
  cases hr : s.reversed <;> split_ifs <;> simp_all

theorem set_head_ordered (s : Selection) (h : Nat) :
    (s.set_head h).start ≤ (s.set_head h).stop := by
  unfold Selection.set_head Selection.tail
  cases hr : s.reversed <;> split_ifs <;> simp_all <;> omega

theorem foldl_set_head_tail (s : Selection) (heads : List Nat) :
    (heads.foldl Selection.set_head s).tail = s.tail := by
  induction heads generalizing s with
  | nil => rfl
  | cons a rest ih => simpa [List.foldl_cons, set_head_tail] using ih (s.set_head a)

/-- C2: starting from the zero-width pending selection at offset 10,
set_head 5 gives start 5, end 10, reversed; a further set_head 15 gives
start 10, end 15, not reversed.  In general any sequence of set_head calls
leaves tail() at the anchor fixed at press time, and the moving edge after
the last call is that call's argument. -/
theorem selection_flip_law :
    (({ start := 10, stop := 10, reversed := false, pending := true } : Selection).set_head 5
      = { start := 5, stop := 10, reversed := true, pending := true })
    ∧ ((({ start := 10, stop := 10, reversed := false, pending := true } : Selection).set_head
          5).set_head 15
      = { start := 10, stop := 15, reversed := false, pending := true })
    ∧ (∀ (s : Selection) (heads : List Nat),
        (heads.foldl Selection.set_head s).tail = s.tail)
    ∧ (∀ (s : Selection) (heads : List Nat) (h : Nat),
        ((heads ++ [h]).foldl Selection.set_head s).movingEdge = h) := by
  refine ⟨by decide, by decide, fun s heads => foldl_set_head_tail s heads, ?_⟩
  intro s heads h
  rw [List.foldl_append]
  simp [set_head_movingEdge]

/-! ## Scheduler: C8, C9, C1 -/

/-- C8: resetting to the current source is a complete no-op — the state,
including selection, parsed document, pending task, reparse flag,
autoscroll request and the spawn counter, is returned unchanged and no
parse is started. -/
theorem reset_idempotent (st : MarkdownState) : Markdown.reset st st.source = st := by
  simp [Markdown.reset]

/-- C9: a parse request on an empty source is a no-op (no task spawned,
parsed document untouched); in particular Markdown::new with an empty
source and Markdown::reset to an empty source leave the parsed document at
its default value with no pending task, without spawning. -/
theorem empty_source_short_circuit :
    (∀ st : MarkdownState, st.source = [] → Markdown.parse st = st)
    ∧ ((Markdown.new []).parsedMarkdown = ParsedMarkdown.defaultPM
        ∧ (Markdown.new []).pendingParse = none
        ∧ (Markdown.new []).spawnCount = 0)
    ∧ (∀ st : MarkdownState, st.source ≠ [] →
        (Markdown.reset st []).parsedMarkdown = ParsedMarkdown.defaultPM
        ∧ (Markdown.reset st []).pendingParse = none
        ∧ (Markdown.reset st []).spawnCount = st.spawnCount) := by
  refine ⟨fun st h => by simp [Markdown.parse, h], by simp [Markdown.new, Markdown.parse], ?_⟩
  intro st h
  simp [Markdown.reset, Markdown.parse, (by simpa using Ne.symm h : ¬([] : List Char) = st.source)]

theorem parse_spawns (s : MarkdownState) (hs : s.source ≠ []) (hp : s.pendingParse = none) :
    Markdown.parse s = { s with
      shouldReparse := false
      pendingParse := some { text := s.source }
      spawnCount := s.spawnCount + 1 } := by
  simp [Markdown.parse, hs, hp]

theorem append_with_pending (st : MarkdownState) (t : PendingTask) (s : List Char)
    (hp : st.pendingParse = some t) (hs : st.source ≠ []) :
    Markdown.append st s = { st with source := st.source ++ s, shouldReparse := true } := by
  have hsrc : st.source ++ s ≠ [] := by
    cases hst : st.source with
    | nil => exact absurd hst hs
    | cons a rest => simp
  simp [Markdown.append, Markdown.parse, hsrc, hp]

theorem foldl_append_with_pending (texts : List (List Char)) (st : MarkdownState)
    (t : PendingTask) (hp : st.pendingParse = some t) (hs : st.source ≠ []) :
    (texts.foldl Markdown.append st).pendingParse = some t
    ∧ (texts.foldl Markdown.append st).spawnCount = st.spawnCount
    ∧ (texts.foldl Markdown.append st).source = st.source ++ texts.flatten
    ∧ (texts.foldl Markdown.append st).shouldReparse =
        (if texts = [] then st.shouldReparse else true) := by
  induction texts generalizing st with
  | nil => simp [hp]
  | cons a rest ih =>
    rw [List.foldl_cons, append_with_pending st t a hp hs]
    have hs1 : st.source ++ a ≠ [] := by
      cases hst : st.source with
      | nil => exact absurd hst hs
      | cons x xs => simp
    obtain ⟨h1, h2, h3, h4⟩ :=
      ih { st with source := st.source ++ a, shouldReparse := true } hp hs1
    refine ⟨h1, h2, by simp [h3], ?_⟩
    rcases hrest : rest with _ | ⟨b, brest⟩ <;> simp_all

/-- C1: while a parse task is in flight, every append only sets the
should_reparse flag — the pending task and spawn count are untouched; when
the in-flight task then completes, exactly one follow-up parse is spawned,
over the source current at that moment, with the flag cleared.  The final
conjunct restates the guard of Markdown::parse itself: with a task pending
(and a non-empty source) a call leaves everything but the flag unchanged. -/
theorem single_flight_reparse (st : MarkdownState) (t : PendingTask)
    (texts : List (List Char)) (parseFn : List Char → List (SrcRange × MdEvent))
    (hp : st.pendingParse = some t) (hs : st.source ≠ []) (hne : texts ≠ []) :
    (texts.foldl Markdown.append st).spawnCount = st.spawnCount
    ∧ (texts.foldl Markdown.append st).pendingParse = some t
    ∧ (texts.foldl Markdown.append st).shouldReparse = true
    ∧ (Markdown.complete parseFn (texts.foldl Markdown.append st)).spawnCount
        = st.spawnCount + 1
    ∧ (Markdown.complete parseFn (texts.foldl Markdown.append st)).pendingParse
        = some { text := st.source ++ texts.flatten }
    ∧ (Markdown.complete parseFn (texts.foldl Markdown.append st)).shouldReparse = false
    ∧ (∀ s : MarkdownState, s.source ≠ [] → s.pendingParse.isSome →
        Markdown.parse s = { s with shouldReparse := true }) := by
  obtain ⟨h1, h2, h3, h4⟩ := foldl_append_with_pending texts st t hp hs
  rw [if_neg hne] at h4
  have hsrc : (texts.foldl Markdown.append st).source ≠ [] := by
    rw [h3]
    cases hst : st.source with
    | nil => exact absurd hst hs
    | cons a rest => simp
  constructor
  · exact h2
  constructor
  · exact h1
  constructor
  · exact h4
  have hcomp : Markdown.complete parseFn (texts.foldl Markdown.append st) =
      Markdown.parse { texts.foldl Markdown.append st with
        parsedMarkdown := { source := t.text, events := parseFn t.text }
        pendingParse := none } := by
    unfold Markdown.complete
    rw [h1]
    simp [h4]
  rw [hcomp, parse_spawns _ (by simpa using hsrc) rfl]
  refine ⟨by simpa using h2, by simpa using h3, rfl, ?_⟩
  intro s hsne hsp
  simp [Markdown.parse, hsne, hsp]

/-! ## The binary-search lookups: characterization of pickMapping -/

theorem pairwise_of_getQ {α : Type} {R : α → α → Prop} {l : List α}
    (hs : l.Pairwise R) {i j : Nat} {a b : α} (hij : i < j)
    (ha : l.get? i = some a) (hb : l.get? j = some b) : R a b := by
  rw [List.get?_eq_some] at ha hb
  obtain ⟨hi, rfl⟩ := ha
  obtain ⟨hj, rfl⟩ := hb
  exact List.pairwise_iff_get.mp hs ⟨i, hi⟩ ⟨j, hj⟩ hij

theorem lastLE_cons (keyf : SourceMapping → Nat) (t : Nat) (a : SourceMapping)
    (rest : List SourceMapping) :
    lastLE keyf t (a :: rest)
      = if keyf a ≤ t then some ((lastLE keyf t rest).getD a) else none := rfl

theorem search_inl_lt (keys : List Nat) (t ix : Nat)
    (h : rustBinarySearch keys t = Sum.inl ix) : ix < keys.length := by
  simp only [rustBinarySearch] at h
  cases hg : keys.get? (keys.countP (fun k => decide (k < t))) with
  | none => rw [hg] at h; simp at h
  | some k =>
    rw [hg] at h
    dsimp only at h
    by_cases hk : k = t
    · rw [if_pos hk] at h
      obtain rfl : keys.countP (fun k => decide (k < t)) = ix := by
        simpa using h
      exact (List.get?_eq_some.mp hg).1
    · rw [if_neg hk] at h; simp at h

theorem search_inr_le (keys : List Nat) (t ix : Nat)
    (h : rustBinarySearch keys t = Sum.inr ix) : ix ≤ keys.length := by
  simp only [rustBinarySearch] at h
  cases hg : keys.get? (keys.countP (fun k => decide (k < t))) with
  | none =>
    rw [hg] at h
    obtain rfl : keys.countP (fun k => decide (k < t)) = ix := by simpa using h
    exact List.countP_le_length _
  | some k =>
    rw [hg] at h
    dsimp only at h
    by_cases hk : k = t
    · rw [if_pos hk] at h; simp at h
    · rw [if_neg hk] at h
      obtain rfl : keys.countP (fun k => decide (k < t)) = ix := by simpa using h
      exact List.countP_le_length _

theorem search_cons_lt (keyf : SourceMapping → Nat) (t : Nat) (m : SourceMapping)
    (ms : List SourceMapping) (h : keyf m < t) :
    rustBinarySearch ((m :: ms).map keyf) t
      = (match rustBinarySearch (ms.map keyf) t with
         | Sum.inl ix => Sum.inl (ix + 1)
         | Sum.inr ix => Sum.inr (ix + 1)) := by
  have hc : (keyf m :: ms.map keyf).countP (fun k => decide (k < t))
      = (ms.map keyf).countP (fun k => decide (k < t)) + 1 := by
    simp [List.countP_cons, h]
  simp only [rustBinarySearch, List.map_cons]
  rw [hc, List.get?_cons_succ]
  cases hg : (ms.map keyf).get? ((ms.map keyf).countP (fun k => decide (k < t))) with
  | none => rfl
  | some k =>
    by_cases hk : k = t
    · simp [hk]
    · simp [hk]

theorem pick_cons_lt (keyf : SourceMapping → Nat) (t : Nat) (m : SourceMapping)
    (ms : List SourceMapping) (h : keyf m < t) :
    pickMapping (m :: ms) keyf t = some ((pickMapping ms keyf t).getD m) := by
  unfold pickMapping
  rw [search_cons_lt keyf t m ms h]
  cases hs : rustBinarySearch (ms.map keyf) t with
  | inl ix =>
    have hlt : ix < ms.length := by simpa using search_inl_lt (ms.map keyf) t ix hs
    obtain ⟨x, hx⟩ : ∃ x, ms.get? ix = some x := by
      rw [List.get?_eq_get hlt]; exact ⟨_, rfl⟩
    simp only [List.get?_eq_getElem?] at hx
    simp [hx]
  | inr ix =>
    have hle : ix ≤ ms.length := by simpa using search_inr_le (ms.map keyf) t ix hs
    cases ix with
    | zero => simp
    | succ j =>
      have hj : j < ms.length := by omega
      obtain ⟨x, hx⟩ : ∃ x, ms.get? j = some x := by
        rw [List.get?_eq_get hj]; exact ⟨_, rfl⟩
      simp only [List.get?_eq_getElem?] at hx
      simp [hx]

theorem pick_head_eq (keyf : SourceMapping → Nat) (t : Nat) (m : SourceMapping)
    (ms : List SourceMapping) (hhead : ∀ b ∈ ms, keyf m < keyf b) (h : keyf m = t) :
    pickMapping (m :: ms) keyf t = some m := by
  have hc : ((m :: ms).map keyf).countP (fun k => decide (k < t)) = 0 := by
    rw [List.countP_eq_zero]
    intro k hk
    simp only [List.map_cons, List.mem_cons, List.mem_map] at hk
    rcases hk with rfl | ⟨b, hb, rfl⟩
    · simp [h]
    · have := hhead b hb
      simp only [decide_eq_true_eq]
      omega
  have hsearch : rustBinarySearch ((m :: ms).map keyf) t = Sum.inl 0 := by
    simp only [rustBinarySearch, hc]
    rw [List.map_cons, List.get?_cons_zero]
    dsimp only
    rw [if_pos h]
  unfold pickMapping
  rw [hsearch]
  rfl

theorem pick_head_gt (keyf : SourceMapping → Nat) (t : Nat) (m : SourceMapping)
    (ms : List SourceMapping) (hhead : ∀ b ∈ ms, keyf m < keyf b) (h : t < keyf m) :
    pickMapping (m :: ms) keyf t = none := by
  have hc : ((m :: ms).map keyf).countP (fun k => decide (k < t)) = 0 := by
    rw [List.countP_eq_zero]
    intro k hk
    simp only [List.map_cons, List.mem_cons, List.mem_map] at hk
    rcases hk with rfl | ⟨b, hb, rfl⟩
    · simp only [decide_eq_true_eq]; omega
    · have := hhead b hb
      simp only [decide_eq_true_eq]
      omega
  have hsearch : rustBinarySearch ((m :: ms).map keyf) t = Sum.inr 0 := by
    simp only [rustBinarySearch, hc]
    rw [List.map_cons, List.get?_cons_zero]
    dsimp only
    rw [if_neg (by omega : ¬keyf m = t)]
  unfold pickMapping
  rw [hsearch]
  rfl

theorem lastLE_none_of (keyf : SourceMapping → Nat) (t : Nat) (ms : List SourceMapping)
    (h : ∀ b ∈ ms, t < keyf b) : lastLE keyf t ms = none := by
  cases ms with
  | nil => rfl
  | cons b bs =>
    have := h b (List.mem_cons_self b bs)
    rw [lastLE_cons, if_neg (by omega)]

theorem pick_eq_lastLE (keyf : SourceMapping → Nat) (t : Nat) (ms : List SourceMapping)
    (hs : ms.Pairwise (fun a b => keyf a < keyf b)) :
    pickMapping ms keyf t = lastLE keyf t ms := by
  induction ms with
  | nil => rfl
  | cons m ms ih =>
    rw [List.pairwise_cons] at hs
    rcases Nat.lt_trichotomy (keyf m) t with hlt | heq | hgt
    · rw [pick_cons_lt keyf t m ms hlt, ih hs.2, lastLE_cons, if_pos (le_of_lt hlt)]
    · rw [pick_head_eq keyf t m ms hs.1 heq, lastLE_cons, if_pos (le_of_eq heq),
        lastLE_none_of keyf t ms (fun b hb => heq ▸ hs.1 b hb)]
      rfl
    · rw [pick_head_gt keyf t m ms hs.1 hgt, lastLE_cons, if_neg (by omega)]

theorem lastLE_eq_some_of (keyf : SourceMapping → Nat) (t : Nat)
    (ms : List SourceMapping) (hs : ms.Pairwise (fun a b => keyf a < keyf b))
    (i : Nat) (m : SourceMapping) (hget : ms.get? i = some m) (hle : keyf m ≤ t)
    (hnext : ∀ m2, ms.get? (i + 1) = some m2 → t < keyf m2) :
    lastLE keyf t ms = some m := by
  induction ms generalizing i with
  | nil => simp at hget
  | cons a rest ih =>
    rw [List.pairwise_cons] at hs
    cases i with
    | zero =>
      simp only [List.get?_cons_zero, Option.some.injEq] at hget
      subst hget
      rw [lastLE_cons, if_pos hle]
      have hrest : lastLE keyf t rest = none := by
        cases hr : rest with
        | nil => rfl
        | cons b bs =>
          have hb : t < keyf b := hnext b (by simp [hr])
          rw [lastLE_cons, if_neg (by omega)]
      rw [hrest]
      rfl
    | succ j =>
      simp only [List.get?_cons_succ] at hget
      have hmem : m ∈ rest := List.get?_mem hget
      have hax : keyf a ≤ t := le_of_lt (lt_of_lt_of_le (hs.1 m hmem) hle)
      rw [lastLE_cons, if_pos hax,
        ih hs.2 j hget (fun m2 h2 => hnext m2 (by simpa using h2))]
      rfl

theorem lastLE_spec (keyf : SourceMapping → Nat) (t : Nat) (ms : List SourceMapping)
    (m : SourceMapping) (h : lastLE keyf t ms = some m) :
    ∃ i, ms.get? i = some m ∧ keyf m ≤ t ∧
      ∀ m2, ms.get? (i + 1) = some m2 → t < keyf m2 := by
  induction ms generalizing m with
  | nil => simp [lastLE] at h
  | cons a rest ih =>
    rw [lastLE_cons] at h
    by_cases ha : keyf a ≤ t
    · rw [if_pos ha] at h
      cases hrest : lastLE keyf t rest with
      | none =>
        rw [hrest] at h
        simp only [Option.getD_none, Option.some.injEq] at h
        subst h
        refine ⟨0, by simp, ha, ?_⟩
        intro m2 h2
        simp only [List.get?_cons_succ] at h2
        cases hr : rest with
        | nil => rw [hr] at h2; simp at h2
        | cons b bs =>
          rw [hr] at h2 hrest
          simp only [List.get?_cons_zero, Option.some.injEq] at h2
          rw [lastLE_cons] at hrest
          by_cases hb : keyf b ≤ t
          · rw [if_pos hb] at hrest; simp at hrest
          · rw [← h2]; omega
      | some x =>
        rw [hrest] at h
        simp only [Option.getD_some, Option.some.injEq] at h
        obtain ⟨i, h1, h2, h3⟩ := ih x hrest
        refine ⟨i + 1, ?_, h ▸ h2, fun m2 hm2 => h3 m2 (by simpa using hm2)⟩
        simpa [h] using h1
    · rw [if_neg ha] at h
      simp at h

theorem pick_eq_some_of (keyf : SourceMapping → Nat) (t : Nat)
    (ms : List SourceMapping) (hs : ms.Pairwise (fun a b => keyf a < keyf b))
    (i : Nat) (m : SourceMapping) (hget : ms.get? i = some m) (hle : keyf m ≤ t)
    (hnext : ∀ m2, ms.get? (i + 1) = some m2 → t < keyf m2) :
    pickMapping ms keyf t = some m := by
  rw [pick_eq_lastLE keyf t ms hs]
  exact lastLE_eq_some_of keyf t ms hs i m hget hle hnext

theorem pick_spec (keyf : SourceMapping → Nat) (t : Nat) (ms : List SourceMapping)
    (hs : ms.Pairwise (fun a b => keyf a < keyf b)) (m : SourceMapping)
    (h : pickMapping ms keyf t = some m) :
    ∃ i, ms.get? i = some m ∧ keyf m ≤ t ∧
      ∀ m2, ms.get? (i + 1) = some m2 → t < keyf m2 := by
  rw [pick_eq_lastLE keyf t ms hs] at h
  exact lastLE_spec keyf t ms m h

theorem sorted_src (ms : List SourceMapping) (hs : SortedMappings ms) :
    ms.Pairwise (fun a b => a.source_index < b.source_index) :=
  List.Pairwise.imp (fun h => h.1) hs

theorem sorted_rend (ms : List SourceMapping) (hs : SortedMappings ms) :
    ms.Pairwise (fun a b => a.rendered_index < b.rendered_index) :=
  List.Pairwise.imp (fun h => h.2) hs

/-! ## C3: the per-line offset-map round trip -/

/-- C3 (amended): over a non-empty table that is strictly increasing in both
fields, (a) composing the rendered-to-source lookup with the
source-to-rendered lookup returns any table breakpoint unchanged, and (b)
the source-to-rendered then rendered-to-source composition returns a source
offset o unchanged provided o is covered 1:1 by the run of its governing
entry: its residual past that entry stays below the rendered gap to the next
entry (the spec's 1:1-byte-correspondence assumption).  Without (b)'s
coverage proviso the claim fails, see the counterexample. -/
theorem offset_map_round_trip (line : RenderedLine)
    (hne : line.source_mappings ≠ []) (hs : SortedMappings line.source_mappings) :
    (∀ i m, line.source_mappings.get? i = some m →
      (line.source_index_for_rendered_index m.rendered_index).bind
        (fun s => line.rendered_index_for_source_index s) = some m.rendered_index)
    ∧ (∀ o i m, line.source_mappings.get? i = some m → m.source_index ≤ o →
        (∀ m2, line.source_mappings.get? (i + 1) = some m2 →
          o < m2.source_index ∧
          o - m.source_index < m2.rendered_index - m.rendered_index) →
        (line.rendered_index_for_source_index o).bind
          (fun r => line.source_index_for_rendered_index r) = some o) := by
  have hsrc := sorted_src line.source_mappings hs
  have hrend := sorted_rend line.source_mappings hs
  constructor
  · intro i m hget
    have hpick1 : pickMapping line.source_mappings (fun mm => mm.rendered_index)
        m.rendered_index = some m :=
      pick_eq_some_of _ _ _ hrend i m hget (le_refl _)
        (fun m2 h2 => pairwise_of_getQ hrend (Nat.lt_succ_self i) hget h2)
    have h1 : line.source_index_for_rendered_index m.rendered_index
        = some m.source_index := by
      unfold RenderedLine.source_index_for_rendered_index
      rw [hpick1]
      simp
    have hpick2 : pickMapping line.source_mappings (fun mm => mm.source_index)
        m.source_index = some m :=
      pick_eq_some_of _ _ _ hsrc i m hget (le_refl _)
        (fun m2 h2 => pairwise_of_getQ hsrc (Nat.lt_succ_self i) hget h2)
    have h2 : line.rendered_index_for_source_index m.source_index
        = some m.rendered_index := by
      unfold RenderedLine.rendered_index_for_source_index
      rw [hpick2]
      simp
    rw [h1]
    simpa using h2
  · intro o i m hget hle hnext
    have hpick1 : pickMapping line.source_mappings (fun mm => mm.source_index) o
        = some m :=
      pick_eq_some_of _ _ _ hsrc i m hget hle (fun m2 h2 => (hnext m2 h2).1)
    have h1 : line.rendered_index_for_source_index o
        = some (m.rendered_index + (o - m.source_index)) := by
      unfold RenderedLine.rendered_index_for_source_index
      rw [hpick1]
      rfl
    have hpick2 : pickMapping line.source_mappings (fun mm => mm.rendered_index)
        (m.rendered_index + (o - m.source_index)) = some m := by
      refine pick_eq_some_of _ _ _ hrend i m hget (Nat.le_add_right _ _) ?_
      intro m2 h2
      have hgap := (hnext m2 h2).2
      have hord : m.rendered_index < m2.rendered_index :=
        pairwise_of_getQ hrend (Nat.lt_succ_self i) hget h2
      omega
    have h2 : line.source_index_for_rendered_index
        (m.rendered_index + (o - m.source_index)) = some o := by
      unfold RenderedLine.source_index_for_rendered_index
      rw [hpick2]
      have heq : m.source_index + (m.rendered_index + (o - m.source_index)
          - m.rendered_index) = o := by omega
      show some (m.source_index + (m.rendered_index + (o - m.source_index)
        - m.rendered_index)) = some o
      rw [heq]
    rw [h1]
    simpa using h2

/-- C3 counterexample: the claim as stated (only non-emptiness and
monotonicity of the table assumed, o anywhere in the span from the first
mapped source offset up to source_end) is false: on gapLine the offset 3
satisfies those hypotheses, yet the forward-then-inverse composition
returns 7, not 3. -/
theorem offset_map_round_trip_cex :
    gapLine.source_mappings ≠ []
    ∧ SortedMappings gapLine.source_mappings
    ∧ (gapLine.source_mappings.head?.map (fun m => m.source_index)) = some 0
    ∧ 0 ≤ 3 ∧ 3 < gapLine.source_end
    ∧ (gapLine.rendered_index_for_source_index 3).bind
        (fun r => gapLine.source_index_for_rendered_index r) = some 7
    ∧ ((gapLine.rendered_index_for_source_index 3).bind
        (fun r => gapLine.source_index_for_rendered_index r)) ≠ some 3 := by
  refine ⟨by decide, by decide, by decide, by decide, by decide, by decide, by decide⟩

/-- Witness for C3: on sampleLine (one entry at rendered 0, source 0) the
breakpoint 0 round-trips through both lookups, and the in-run offset 3
round-trips back to 3. -/
theorem offset_map_round_trip_witness :
    (sampleLine.source_index_for_rendered_index 0).bind
      (fun s => sampleLine.rendered_index_for_source_index s) = some 0
    ∧ (sampleLine.rendered_index_for_source_index 3).bind
      (fun r => sampleLine.source_index_for_rendered_index r) = some 3 := by
  constructor
  · exact (offset_map_round_trip sampleLine (by decide) (by decide)).1 0
      { rendered_index := 0, source_index := 0 } (by decide)
  · exact (offset_map_round_trip sampleLine (by decide) (by decide)).2 3 0
      { rendered_index := 0, source_index := 0 } (by decide) (by decide)
      (fun m2 h2 => by simp [sampleLine] at h2)

/-! ## C4: surrounding_word_range totality -/

/-- C4 (code bug): RenderedText::surrounding_word_range is not total.  On
the rendered text the builder produces for the two-paragraph document
(twoParaSource, offsets: paragraph a at 0..1, paragraph b at 3..4), the
query at source offset 2 — structural whitespace between the paragraphs,
at most the second line's source_end but before its first mapping entry —
panics: the binary search inside rendered_index_for_source_index returns
the insertion point 0 and the Err-branch source_mappings[ix - 1]
underflows (some none below is: the layout builds, the query panics).  A
query past the last line's source_end does reach the documented degenerate
fallback, as the second conjunct shows. -/
theorem surrounding_word_range_panics :
    (requestLayout {} (fun _ => none) twoParaSource twoParaEvents).map
      (fun rt => rt.surrounding_word_range 2) = some none
    ∧ (requestLayout {} (fun _ => none) twoParaSource twoParaEvents).map
      (fun rt => rt.surrounding_word_range 100) = some (some (100, 100)) := by
  exact ⟨rfl, rfl⟩

/-! ## C6: trailing-newline trim of fenced code blocks -/

/-- C6: when the pending line ends in a newline (and the builder state is
sane: a last run of positive length and a positive source cursor, as always
holds when the newline was pushed by push_text), trim_trailing_newline
removes exactly one character from the pending text, decrements the last
run's length by one and the source cursor by one; and for the fenced block
scenario (source fenceSource with its event stream) the rendered text of
the code block is exactly code, with no trailing newline. -/
theorem code_block_trailing_newline_trim :
    (∀ (b : MarkdownElementBuilder) (r : TextRun),
      b.pending_line.text.getLast? = some (Char.ofNat 10) →
      b.pending_line.runs.getLast? = some r →
      r.len ≠ 0 → b.current_source_index ≠ 0 →
      ∃ b2, b.trim_trailing_newline = some b2
        ∧ b2.pending_line.text = b.pending_line.text.dropLast
        ∧ b2.pending_line.text.length + 1 = b.pending_line.text.length
        ∧ b2.pending_line.runs.getLast? = some { r with len := r.len - 1 }
        ∧ b2.current_source_index = b.current_source_index - 1)
    ∧ (requestLayout {} (fun _ => none) fenceSource fenceEvents).map
        (fun rt => rt.lines.map (fun l => l.text)) = some [String.toList ("code")] := by
  constructor
  · intro b r h1 h2 h3 h4
    have hnil : b.pending_line.text ≠ [] := by
      intro hn
      rw [hn] at h1
      simp at h1
    refine ⟨{ b with
        pending_line :=
          { b.pending_line with
            text := b.pending_line.text.dropLast
            runs := b.pending_line.runs.dropLast ++ [{ r with len := r.len - 1 }] }
        current_source_index := b.current_source_index - 1 }, ?_, rfl, ?_, ?_, rfl⟩
    · unfold MarkdownElementBuilder.trim_trailing_newline
      rw [if_pos h1, h2]
      dsimp only
      rw [if_neg (not_or.mpr ⟨h3, h4⟩)]
    · show b.pending_line.text.dropLast.length + 1 = b.pending_line.text.length
      have := List.length_dropLast b.pending_line.text
      have hpos : 0 < b.pending_line.text.length := List.length_pos.mpr hnil
      omega
    · simp
  · rfl

/-! ## C7: boundary margin suppression in push_div -/

/-- C7: a container pushed by push_div whose source range starts at offset
0 has its top margin refined to 0 px, one whose range ends at the
document's final offset (markdownEnd: the end of the last event's range, or
0 without events) has its bottom margin refined to 0 rems; a container not
touching a boundary keeps the margins of the styled div it was built
from. -/
theorem boundaryRefine_spec (d : Div) (range : SrcRange) (m : Nat) :
    (range.1 = 0 →
      (MarkdownElementBuilder.boundaryRefine d range m).margin_top = some (Length.px 0))
    ∧ (range.2 = m →
      (MarkdownElementBuilder.boundaryRefine d range m).margin_bottom
        = some (Length.rems 0))
    ∧ (range.1 ≠ 0 →
      (MarkdownElementBuilder.boundaryRefine d range m).margin_top = d.margin_top)
    ∧ (range.2 ≠ m →
      (MarkdownElementBuilder.boundaryRefine d range m).margin_bottom
        = d.margin_bottom) := by
  unfold MarkdownElementBuilder.boundaryRefine Div.refine
  by_cases h1 : range.1 = 0 <;> by_cases h2 : range.2 = m <;> simp [h1, h2]

theorem boundary_margin_suppression (events : List (SrcRange × MdEvent))
    (b b2 : MarkdownElementBuilder) (d : Div) (range : SrcRange)
    (h : b.push_div d range (markdownEnd events) = some b2) :
    ∃ d2, b2.div_stack.head? = some d2
      ∧ (range.1 = 0 → d2.margin_top = some (Length.px 0))
      ∧ (range.2 = markdownEnd events → d2.margin_bottom = some (Length.rems 0))
      ∧ (range.1 ≠ 0 → d2.margin_top = d.margin_top)
      ∧ (range.2 ≠ markdownEnd events → d2.margin_bottom = d.margin_bottom) := by
  unfold MarkdownElementBuilder.push_div at h
  cases hf : b.flush_text with
  | none => rw [hf] at h; simp at h
  | some bf =>
    rw [hf] at h
    simp at h
    subst h
    obtain ⟨hA, hB, hC, hD⟩ := boundaryRefine_spec d range (markdownEnd events)
    exact ⟨MarkdownElementBuilder.boundaryRefine d range (markdownEnd events),
      rfl, hA, hB, hC, hD⟩

/-! ## C10: links inside code blocks are ignored -/

theorem flush_links_stack (b b2 : MarkdownElementBuilder) (h : b.flush_text = some b2) :
    b2.rendered_links = b.rendered_links ∧ b2.code_block_stack = b.code_block_stack := by
  simp only [MarkdownElementBuilder.flush_text] at h
  split at h
  · simp only [Option.some.injEq] at h
    subst h
    exact ⟨rfl, rfl⟩
  · split at h
    · exact Option.noConfusion h
    · simp only [Option.some.injEq] at h
      subst h
      exact ⟨rfl, rfl⟩

theorem push_div_links_stack (b b2 : MarkdownElementBuilder) (d : Div) (range : SrcRange)
    (m : Nat) (h : b.push_div d range m = some b2) :
    b2.rendered_links = b.rendered_links ∧ b2.code_block_stack = b.code_block_stack := by
  unfold MarkdownElementBuilder.push_div at h
  cases hf : b.flush_text with
  | none => rw [hf] at h; simp at h
  | some bf =>
    rw [hf] at h
    simp only [Option.bind_eq_bind, Option.some_bind, Option.some.injEq] at h
    subst h
    exact flush_links_stack b bf hf

theorem pop_div_links_stack (b b2 : MarkdownElementBuilder) (h : b.pop_div = some b2) :
    b2.rendered_links = b.rendered_links ∧ b2.code_block_stack = b.code_block_stack := by
  unfold MarkdownElementBuilder.pop_div at h
  cases hf : b.flush_text with
  | none => rw [hf] at h; simp at h
  | some bf =>
    rw [hf] at h
    simp only [Option.bind_eq_bind, Option.some_bind] at h
    obtain ⟨h1, h2⟩ := flush_links_stack b bf hf
    rcases hd : bf.div_stack with _ | ⟨d0, rest⟩
    · rw [hd] at h; exact Option.noConfusion h
    · rw [hd] at h
      rcases rest with _ | ⟨d1, rest2⟩
      · exact Option.noConfusion h
      · simp only [Option.some.injEq] at h
        subst h
        exact ⟨h1, h2⟩

theorem trim_links_stack (b b2 : MarkdownElementBuilder)
    (h : b.trim_trailing_newline = some b2) :
    b2.rendered_links = b.rendered_links ∧ b2.code_block_stack = b.code_block_stack := by
  unfold MarkdownElementBuilder.trim_trailing_newline at h
  split at h
  · split at h
    · exact Option.noConfusion h
    · split at h
      · exact Option.noConfusion h
      · simp only [Option.some.injEq] at h
        subst h
        exact ⟨rfl, rfl⟩
  · simp only [Option.some.injEq] at h
    subst h
    exact ⟨rfl, rfl⟩

theorem next_bullet_links_stack (b : MarkdownElementBuilder) :
    ((b.next_bullet_index).2).rendered_links = b.rendered_links
    ∧ ((b.next_bullet_index).2).code_block_stack = b.code_block_stack := by
  cases hl : b.list_stack with
  | nil => simp [MarkdownElementBuilder.next_bullet_index, hl]
  | cons e rest =>
    cases he : e.bullet_index <;>
      simp [MarkdownElementBuilder.next_bullet_index, hl, he]

theorem build_links (b : MarkdownElementBuilder) (rt : RenderedText)
    (h : b.build = some rt) : rt.links = b.rendered_links := by
  unfold MarkdownElementBuilder.build at h
  cases hf : b.flush_text with
  | none => rw [hf] at h; simp at h
  | some bf =>
    rw [hf] at h
    simp only [Option.bind_eq_bind, Option.some_bind] at h
    obtain ⟨h1, _⟩ := flush_links_stack b bf hf
    rcases hd : bf.div_stack with _ | ⟨d0, rest⟩
    · rw [hd] at h; exact Option.noConfusion h
    · rw [hd] at h
      simp only [Option.some.injEq] at h
      subst h
      exact h1

theorem processEvent_links_stack (style : MarkStyle) (loadLang : String → Option Language)
    (source : List Char) (mdEnd : Nat) (b b2 : MarkdownElementBuilder)
    (ev : SrcRange × MdEvent) (h : processEvent style loadLang source mdEnd b ev = some b2) :
    b2.rendered_links = b.rendered_links ++ linkDelta b.code_block_stack.length ev
    ∧ b2.code_block_stack.length = depthStep b.code_block_stack.length ev := by
  obtain ⟨range, e⟩ := ev
  cases e with
  | start tag =>
    cases tag with
    | paragraph =>
      simp only [processEvent] at h
      obtain ⟨h1, h2⟩ := push_div_links_stack _ _ _ _ _ h
      simp [linkDelta, depthStep, h1, h2]
    | heading lvl =>
      simp only [processEvent] at h
      obtain ⟨h1, h2⟩ := push_div_links_stack _ _ _ _ _ h
      simp only [MarkdownElementBuilder.push_text_style] at h1 h2
      simp [linkDelta, depthStep, h1, h2]
    | blockQuote =>
      simp only [processEvent] at h
      obtain ⟨h1, h2⟩ := push_div_links_stack _ _ _ _ _ h
      simp only [MarkdownElementBuilder.push_text_style] at h1 h2
      simp [linkDelta, depthStep, h1, h2]
    | codeBlock kind =>
      simp only [processEvent] at h
      cases hst : style.code_block.text with
      | none =>
        rw [hst] at h
        obtain ⟨h1, h2⟩ := push_div_links_stack _ _ _ _ _ h
        simp only [MarkdownElementBuilder.push_code_block] at h1 h2
        simp [linkDelta, depthStep, h1, h2]
      | some ts =>
        rw [hst] at h
        obtain ⟨h1, h2⟩ := push_div_links_stack _ _ _ _ _ h
        simp only [MarkdownElementBuilder.push_code_block,
          MarkdownElementBuilder.push_text_style] at h1 h2
        simp [linkDelta, depthStep, h1, h2]
    | htmlBlock =>
      simp only [processEvent] at h
      obtain ⟨h1, h2⟩ := push_div_links_stack _ _ _ _ _ h
      simp [linkDelta, depthStep, h1, h2]
    | list bulletIndex =>
      simp only [processEvent] at h
      obtain ⟨h1, h2⟩ := push_div_links_stack _ _ _ _ _ h
      simp only [MarkdownElementBuilder.push_list] at h1 h2
      simp [linkDelta, depthStep, h1, h2]
    | item =>
      simp only [processEvent] at h
      cases hp : ((b.next_bullet_index).2).push_div
          { margin_bottom := some (Length.rems (1 / 4)) } range mdEnd with
      | none => rw [hp] at h; simp at h
      | some bm =>
        rw [hp] at h
        simp only [Option.bind_eq_bind, Option.some_bind] at h
        obtain ⟨ha1, ha2⟩ := push_div_links_stack _ _ _ _ _ hp
        obtain ⟨hb1, hb2⟩ := push_div_links_stack _ _ _ _ _ h
        obtain ⟨hn1, hn2⟩ := next_bullet_links_stack b
        simp [linkDelta, depthStep, hb1, hb2, ha1, ha2, hn1, hn2]
    | emphasis =>
      simp only [processEvent, Option.some.injEq] at h
      subst h
      simp [MarkdownElementBuilder.push_text_style, linkDelta, depthStep]
    | strong =>
      simp only [processEvent, Option.some.injEq] at h
      subst h
      simp [MarkdownElementBuilder.push_text_style, linkDelta, depthStep]
    | strikethrough =>
      simp only [processEvent, Option.some.injEq] at h
      subst h
      simp [MarkdownElementBuilder.push_text_style, linkDelta, depthStep]
    | link destUrl =>
      simp only [processEvent] at h
      by_cases hc : b.code_block_stack.isEmpty
      · rw [if_pos hc] at h
        simp only [Option.some.injEq] at h
        subst h
        have hz : b.code_block_stack.length = 0 := by
          simpa [List.isEmpty_iff, List.length_eq_zero] using hc
        simp [MarkdownElementBuilder.push_link, MarkdownElementBuilder.push_text_style,
          linkDelta, depthStep, hz]
      · rw [if_neg hc] at h
        simp only [Option.some.injEq] at h
        subst h
        have hz : b.code_block_stack.length ≠ 0 := by
          intro h0
          exact hc (by simpa [List.isEmpty_iff, List.length_eq_zero] using h0)
        simp [linkDelta, depthStep, hz]
    | metadataBlock =>
      simp only [processEvent, Option.some.injEq] at h
      subst h
      simp [linkDelta, depthStep]
    | wildcard id =>
      simp only [processEvent, Option.some.injEq] at h
      subst h
      simp [linkDelta, depthStep]
  | stop tag =>
    cases tag with
    | paragraph =>
      simp only [processEvent] at h
      obtain ⟨h1, h2⟩ := pop_div_links_stack _ _ h
      simp [linkDelta, depthStep, h1, h2]
    | heading =>
      simp only [processEvent] at h
      cases hp : b.pop_div with
      | none => rw [hp] at h; simp at h
      | some bm =>
        rw [hp] at h
        simp only [Option.bind_eq_bind, Option.some_bind, Option.some.injEq] at h
        subst h
        obtain ⟨h1, h2⟩ := pop_div_links_stack _ _ hp
        simp [MarkdownElementBuilder.pop_text_style, linkDelta, depthStep, h1, h2]
    | blockQuote =>
      simp only [processEvent] at h
      obtain ⟨h1, h2⟩ := pop_div_links_stack _ _ h
      simp only [MarkdownElementBuilder.pop_text_style] at h1 h2
      simp [linkDelta, depthStep, h1, h2]
    | codeBlock =>
      simp only [processEvent] at h
      cases ht : b.trim_trailing_newline with
      | none => rw [ht] at h; simp at h
      | some bt =>
        rw [ht] at h
        simp only [Option.bind_eq_bind, Option.some_bind] at h
        cases hp : bt.pop_div with
        | none => rw [hp] at h; simp at h
        | some bp =>
          rw [hp] at h
          simp only [Option.bind_eq_bind, Option.some_bind] at h
          obtain ⟨ht1, ht2⟩ := trim_links_stack _ _ ht
          obtain ⟨hp1, hp2⟩ := pop_div_links_stack _ _ hp
          cases hst : style.code_block.text with
          | none =>
            rw [hst] at h
            simp only [Option.some.injEq] at h
            subst h
            simp [MarkdownElementBuilder.pop_code_block, linkDelta, depthStep,
              hp1, hp2, ht1, ht2, List.length_tail]
          | some ts =>
            rw [hst] at h
            simp only [Option.some.injEq] at h
            subst h
            simp [MarkdownElementBuilder.pop_code_block,
              MarkdownElementBuilder.pop_text_style, linkDelta, depthStep,
              hp1, hp2, ht1, ht2, List.length_tail]
    | htmlBlock =>
      simp only [processEvent] at h
      obtain ⟨h1, h2⟩ := pop_div_links_stack _ _ h
      simp [linkDelta, depthStep, h1, h2]
    | list =>
      simp only [processEvent] at h
      obtain ⟨h1, h2⟩ := pop_div_links_stack _ _ h
      simp only [MarkdownElementBuilder.pop_list] at h1 h2
      simp [linkDelta, depthStep, h1, h2]
    | item =>
      simp only [processEvent] at h
      cases hp : b.pop_div with
      | none => rw [hp] at h; simp at h
      | some bm =>
        rw [hp] at h
        simp only [Option.bind_eq_bind, Option.some_bind] at h
        obtain ⟨ha1, ha2⟩ := pop_div_links_stack _ _ hp
        obtain ⟨hb1, hb2⟩ := pop_div_links_stack _ _ h
        simp [linkDelta, depthStep, ha1, ha2, hb1, hb2]
    | emphasis =>
      simp only [processEvent, Option.some.injEq] at h
      subst h
      simp [MarkdownElementBuilder.pop_text_style, linkDelta, depthStep]
    | strong =>
      simp only [processEvent, Option.some.injEq] at h
      subst h
      simp [MarkdownElementBuilder.pop_text_style, linkDelta, depthStep]
    | strikethrough =>
      simp only [processEvent, Option.some.injEq] at h
      subst h
      simp [MarkdownElementBuilder.pop_text_style, linkDelta, depthStep]
    | link =>
      simp only [processEvent] at h
      by_cases hc : b.code_block_stack.isEmpty
      · rw [if_pos hc] at h
        simp only [Option.some.injEq] at h
        subst h
        simp [MarkdownElementBuilder.pop_text_style, linkDelta, depthStep]
      · rw [if_neg hc] at h
        simp only [Option.some.injEq] at h
        subst h
        simp [linkDelta, depthStep]
    | wildcard id =>
      simp only [processEvent, Option.some.injEq] at h
      subst h
      simp [linkDelta, depthStep]
  | text =>
    simp only [processEvent] at h
    cases hs : sliceSource source range with
    | none => rw [hs] at h; simp at h
    | some tt =>
      rw [hs] at h
      simp only [Option.bind_eq_bind, Option.some_bind, Option.some.injEq] at h
      subst h
      simp [MarkdownElementBuilder.push_text, linkDelta, depthStep]
  | code =>
    simp only [processEvent] at h
    cases hs : sliceSource source range with
    | none => rw [hs] at h; simp at h
    | some tt =>
      rw [hs] at h
      simp only [Option.bind_eq_bind, Option.some_bind, Option.some.injEq] at h
      subst h
      simp [MarkdownElementBuilder.push_text, MarkdownElementBuilder.push_text_style,
        MarkdownElementBuilder.pop_text_style, linkDelta, depthStep]
  | html =>
    simp only [processEvent] at h
    cases hs : sliceSource source range with
    | none => rw [hs] at h; simp at h
    | some tt =>
      rw [hs] at h
      simp only [Option.bind_eq_bind, Option.some_bind, Option.some.injEq] at h
      subst h
      simp [MarkdownElementBuilder.push_text, linkDelta, depthStep]
  | inlineHtml =>
    simp only [processEvent] at h
    cases hs : sliceSource source range with
    | none => rw [hs] at h; simp at h
    | some tt =>
      rw [hs] at h
      simp only [Option.bind_eq_bind, Option.some_bind, Option.some.injEq] at h
      subst h
      simp [MarkdownElementBuilder.push_text, linkDelta, depthStep]
  | rule =>
    simp only [processEvent] at h
    cases hp : b.push_div
        { margin_top := some (Length.rems (1 / 2))
          margin_bottom := some (Length.rems (1 / 2)) } range mdEnd with
    | none => rw [hp] at h; simp at h
    | some bm =>
      rw [hp] at h
      simp only [Option.bind_eq_bind, Option.some_bind] at h
      obtain ⟨ha1, ha2⟩ := push_div_links_stack _ _ _ _ _ hp
      obtain ⟨hb1, hb2⟩ := pop_div_links_stack _ _ h
      simp [linkDelta, depthStep, ha1, ha2, hb1, hb2]
  | softBreak =>
    simp only [processEvent, Option.some.injEq] at h
    subst h
    simp [MarkdownElementBuilder.push_text, linkDelta, depthStep]
  | hardBreak =>
    simp only [processEvent] at h
    cases hp : b.push_div (Div.refine {} style.break_style) range mdEnd with
    | none => rw [hp] at h; simp at h
    | some bm =>
      rw [hp] at h
      simp only [Option.bind_eq_bind, Option.some_bind] at h
      obtain ⟨ha1, ha2⟩ := push_div_links_stack _ _ _ _ _ hp
      obtain ⟨hb1, hb2⟩ := pop_div_links_stack _ _ h
      simp [linkDelta, depthStep, ha1, ha2, hb1, hb2]
  | wildcard id =>
    simp only [processEvent, Option.some.injEq] at h
    subst h
    simp [linkDelta, depthStep]

theorem foldlM_links (style : MarkStyle) (loadLang : String → Option Language)
    (source : List Char) (mdEnd : Nat) (events : List (SrcRange × MdEvent)) :
    ∀ (b b2 : MarkdownElementBuilder),
    events.foldlM (processEvent style loadLang source mdEnd) b = some b2 →
    b2.rendered_links = b.rendered_links
      ++ linksOutsideCodeBlocks b.code_block_stack.length events := by
  induction events with
  | nil =>
    intro b b2 h
    obtain rfl : b = b2 := by simpa using h
    simp [linksOutsideCodeBlocks]
  | cons ev rest ih =>
    intro b b2 h
    rw [List.foldlM_cons] at h
    cases hp : processEvent style loadLang source mdEnd b ev with
    | none => rw [hp] at h; simp at h
    | some bm =>
      rw [hp] at h
      simp only [Option.bind_eq_bind, Option.some_bind] at h
      obtain ⟨h1, h2⟩ := processEvent_links_stack style loadLang source mdEnd b bm ev hp
      have hrest := ih bm b2 h
      rw [hrest, h1, h2]
      simp [linksOutsideCodeBlocks, List.append_assoc]

/-- C10: the links of a built RenderedText are exactly those whose Start
event arrived while the code-block stack was empty (reference function
linksOutsideCodeBlocks); moreover a Start(Link) or End(Link) processed with
a non-empty code-block stack leaves the builder state entirely unchanged —
no link span is recorded, no text style is pushed, and the matching End
pops nothing. -/
theorem links_in_code_blocks_ignored :
    (∀ (style : MarkStyle) (loadLang : String → Option Language) (source : List Char)
      (events : List (SrcRange × MdEvent)) (rt : RenderedText),
      requestLayout style loadLang source events = some rt →
      rt.links = linksOutsideCodeBlocks 0 events)
    ∧ (∀ (style : MarkStyle) (loadLang : String → Option Language) (source : List Char)
        (mdEnd : Nat) (b : MarkdownElementBuilder) (range : SrcRange) (url : String),
        b.code_block_stack ≠ [] →
        processEvent style loadLang source mdEnd b
            (range, MdEvent.start (MarkdownTag.link url)) = some b
        ∧ processEvent style loadLang source mdEnd b
            (range, MdEvent.stop MarkdownTagEnd.link) = some b) := by
  constructor
  · intro style loadLang source events rt h
    unfold requestLayout at h
    cases hf : events.foldlM (processEvent style loadLang source (markdownEnd events))
        MarkdownElementBuilder.new with
    | none => rw [hf] at h; simp at h
    | some bfin =>
      rw [hf] at h
      simp only [Option.bind_eq_bind, Option.some_bind] at h
      have hl := foldlM_links style loadLang source (markdownEnd events) events
        MarkdownElementBuilder.new bfin hf
      have hb := build_links bfin rt h
      rw [hb, hl]
      simp [MarkdownElementBuilder.new]
  · intro style loadLang source mdEnd b range url hne
    have hc : b.code_block_stack.isEmpty = false := by
      cases hcs : b.code_block_stack with
      | nil => exact absurd hcs hne
      | cons a rest => simp
    constructor <;> simp [processEvent, hc]

/-! ## C5: the selection range invariant -/

theorem rfindSpaceIdx_lt (cs : List Char) (i : Nat) (h : rfindSpaceIdx cs = some i) :
    i < cs.length := by
  induction cs generalizing i with
  | nil => simp [rfindSpaceIdx] at h
  | cons c rest ih =>
    unfold rfindSpaceIdx at h
    cases hr : rfindSpaceIdx rest with
    | some j =>
      rw [hr] at h
      simp only [Option.some.injEq] at h
      subst h
      have := ih j hr
      simp
      omega
    | none =>
      rw [hr] at h
      by_cases hc : c = Char.ofNat 32
      · rw [if_pos hc] at h
        simp only [Option.some.injEq] at h
        subst h
        simp
      · rw [if_neg hc] at h
        exact Option.noConfusion h

theorem previousSpaceIdx_le (text : List Char) (idx : Nat) :
    previousSpaceIdx text idx ≤ idx := by
  unfold previousSpaceIdx
  cases hr : rfindSpaceIdx (text.take idx) with
  | none => exact Nat.zero_le idx
  | some i =>
    dsimp only
    have := rfindSpaceIdx_lt _ _ hr
    have hlen : (text.take idx).length ≤ idx := by
      simp [List.length_take]
    omega

theorem nextSpaceIdx_ge (text : List Char) (idx : Nat) (h : idx ≤ text.length) :
    idx ≤ nextSpaceIdx text idx := by
  unfold nextSpaceIdx
  cases hr : findSpaceIdx (text.drop idx) with
  | none => exact h
  | some j =>
    dsimp only
    omega

theorem chain'_of_getQ {α : Type} {R : α → α → Prop} {l : List α}
    (hc : List.Chain' R l) {i : Nat} {a b : α}
    (ha : l.get? i = some a) (hb : l.get? (i + 1) = some b) : R a b := by
  rw [List.get?_eq_some] at ha hb
  obtain ⟨hi, rfl⟩ := ha
  obtain ⟨hj, rfl⟩ := hb
  have := List.chain'_iff_get.mp hc i (by omega)
  exact this

theorem s2i_mono (line : RenderedLine) (hs : SortedMappings line.source_mappings)
    (hg : GapBounded line.source_mappings) (u v x y : Nat) (huv : u ≤ v)
    (hx : line.source_index_for_rendered_index u = some x)
    (hy : line.source_index_for_rendered_index v = some y) : x ≤ y := by
  have hrend := sorted_rend _ hs
  have hsrc := sorted_src _ hs
  unfold RenderedLine.source_index_for_rendered_index at hx hy
  cases hpu : pickMapping line.source_mappings (fun mm => mm.rendered_index) u with
  | none => rw [hpu] at hx; simp at hx
  | some mu =>
    rw [hpu] at hx
    cases hpv : pickMapping line.source_mappings (fun mm => mm.rendered_index) v with
    | none => rw [hpv] at hy; simp at hy
    | some mv =>
      rw [hpv] at hy
      have hxe : mu.source_index + (u - mu.rendered_index) = x := by simpa using hx
      have hye : mv.source_index + (v - mv.rendered_index) = y := by simpa using hy
      obtain ⟨i, hgi, hgle, hgnext⟩ := pick_spec _ _ _ hrend mu hpu
      obtain ⟨j, hgj, hjle, hjnext⟩ := pick_spec _ _ _ hrend mv hpv
      have hilen : i < line.source_mappings.length := (List.get?_eq_some.mp hgi).1
      have hjlen : j < line.source_mappings.length := (List.get?_eq_some.mp hgj).1
      have hij : i ≤ j := by
        by_contra hij
        push_neg at hij
        have hj1 : j + 1 < line.source_mappings.length := by omega
        obtain ⟨m1, hm1⟩ : ∃ m1, line.source_mappings.get? (j + 1) = some m1 := by
          rw [List.get?_eq_get hj1]; exact ⟨_, rfl⟩
        have hv1 : v < m1.rendered_index := hjnext m1 hm1
        rcases Nat.eq_or_lt_of_le (by omega : j + 1 ≤ i) with heq | hlt
        · rw [← heq] at hgi
          rw [hgi] at hm1
          simp only [Option.some.injEq] at hm1
          subst hm1
          omega
        · have := pairwise_of_getQ hrend hlt hm1 hgi
          omega
      rcases Nat.eq_or_lt_of_le hij with heq | hlt
      · rw [heq] at hgi
        rw [hgi] at hgj
        simp only [Option.some.injEq] at hgj
        subst hgj
        omega
      · have hi1 : i + 1 < line.source_mappings.length := by omega
        obtain ⟨m1, hm1⟩ : ∃ m1, line.source_mappings.get? (i + 1) = some m1 := by
          rw [List.get?_eq_get hi1]; exact ⟨_, rfl⟩
        have hu1 : u < m1.rendered_index := hgnext m1 hm1
        have hchain : m1.rendered_index - mu.rendered_index
            ≤ m1.source_index - mu.source_index := chain'_of_getQ hg hgi hm1
        have hmono1 : mu.source_index < m1.source_index :=
          (pairwise_of_getQ hs (Nat.lt_succ_self i) hgi hm1).1
        have hmono2 : m1.source_index ≤ mv.source_index := by
          rcases Nat.eq_or_lt_of_le (by omega : i + 1 ≤ j) with heq2 | hlt2
          · rw [heq2] at hm1
            rw [hm1] at hgj
            simp only [Option.some.injEq] at hgj
            subst hgj
            exact le_refl _
          · exact le_of_lt (pairwise_of_getQ hsrc hlt2 hm1 hgj)
        omega

theorem wordRangeInLine_ordered (line : RenderedLine) (hw : WellFormedLine line)
    (si a b : Nat) (h : wordRangeInLine line si = some (a, b)) : a ≤ b := by
  obtain ⟨hne, hs, hg, hend⟩ := hw
  unfold wordRangeInLine at h
  cases hh : line.source_mappings.head? with
  | none => rw [hh] at h; simp at h
  | some firstM =>
    rw [hh] at h
    simp only [Option.bind_eq_bind, Option.some_bind] at h
    cases hr : line.rendered_index_for_source_index si with
    | none => rw [hr] at h; simp at h
    | some ri =>
      rw [hr] at h
      simp only [Option.bind_eq_bind, Option.some_bind] at h
      by_cases hidx : ri - firstM.rendered_index ≤ line.text.length
      · rw [if_pos hidx] at h
        cases ha : line.source_index_for_rendered_index
            (firstM.rendered_index + previousSpaceIdx line.text
              (ri - firstM.rendered_index)) with
        | none => rw [ha] at h; simp at h
        | some a0 =>
          rw [ha] at h
          simp only [Option.bind_eq_bind, Option.some_bind] at h
          cases hb : line.source_index_for_rendered_index
              (firstM.rendered_index + nextSpaceIdx line.text
                (ri - firstM.rendered_index)) with
          | none => rw [hb] at h; simp at h
          | some b0 =>
            rw [hb] at h
            simp only [Option.bind_eq_bind, Option.some_bind, Option.some.injEq,
              Prod.mk.injEq] at h
            obtain ⟨rfl, rfl⟩ := h
            refine s2i_mono line hs hg _ _ _ _ ?_ ha hb
            have h1 := previousSpaceIdx_le line.text (ri - firstM.rendered_index)
            have h2 := nextSpaceIdx_ge line.text (ri - firstM.rendered_index) hidx
            omega
      · rw [if_neg hidx] at h
        simp at h

theorem wordRangeGo_ordered (si : Nat) (lines : List RenderedLine)
    (hw : ∀ line ∈ lines, WellFormedLine line) (a b : Nat)
    (h : surroundingWordRangeGo si lines = some (a, b)) : a ≤ b := by
  induction lines with
  | nil =>
    unfold surroundingWordRangeGo at h
    simp only [Option.some.injEq, Prod.mk.injEq] at h
    omega
  | cons line rest ih =>
    unfold surroundingWordRangeGo at h
    by_cases hcmp : si > line.source_end
    · rw [if_pos hcmp] at h
      exact ih (fun l hl => hw l (List.mem_cons_of_mem line hl)) h
    · rw [if_neg hcmp] at h
      exact wordRangeInLine_ordered line (hw line (List.mem_cons_self line rest)) si a b h

theorem lineRangeGo_ordered (si : Nat) (lines : List RenderedLine)
    (hw : ∀ line ∈ lines, WellFormedLine line) (a b : Nat)
    (h : surroundingLineRangeGo si lines = some (a, b)) : a ≤ b := by
  induction lines with
  | nil =>
    unfold surroundingLineRangeGo at h
    simp only [Option.some.injEq, Prod.mk.injEq] at h
    omega
  | cons line rest ih =>
    unfold surroundingLineRangeGo at h
    by_cases hcmp : si > line.source_end
    · rw [if_pos hcmp] at h
      exact ih (fun l hl => hw l (List.mem_cons_of_mem line hl)) h
    · rw [if_neg hcmp] at h
      cases hh : line.source_mappings.head? with
      | none => rw [hh] at h; exact Option.noConfusion h
      | some firstM =>
        rw [hh] at h
        simp only [Option.some.injEq, Prod.mk.injEq] at h
        obtain ⟨rfl, rfl⟩ := h
        exact (hw line (List.mem_cons_self line rest)).2.2.2 firstM
          (List.mem_of_mem_head? hh)

theorem press_ordered (t : RenderedText) (si cc : Nat) (sel : Selection)
    (hw : WellFormedText t) (h : pressSelection t si cc = some sel) :
    sel.start ≤ sel.stop := by
  unfold pressSelection at h
  by_cases h2 : cc = 2
  · rw [if_pos h2] at h
    cases hr : t.surrounding_word_range si with
    | none => rw [hr] at h; simp at h
    | some range =>
      rw [hr] at h
      simp only [Option.bind_eq_bind, Option.some_bind, Option.some.injEq] at h
      subst h
      exact wordRangeGo_ordered si t.lines hw range.1 range.2 (by simpa using hr)
  · rw [if_neg h2] at h
    by_cases h3 : cc = 3
    · rw [if_pos h3] at h
      cases hr : t.surrounding_line_range si with
      | none => rw [hr] at h; simp at h
      | some range =>
        rw [hr] at h
        simp only [Option.bind_eq_bind, Option.some_bind, Option.some.injEq] at h
        subst h
        exact lineRangeGo_ordered si t.lines hw range.1 range.2 (by simpa using hr)
    · rw [if_neg h3] at h
      simp only [Option.bind_eq_bind, Option.some_bind, Option.some.injEq] at h
      subst h
      exact le_refl si

/-- C5: start ≤ end holds after every selection transition — the default
selection, a press installing a 1/2/3-click range on a well-formed rendered
text, every set_head step from an ordered state, and the release that
clears pending; and the range consumers observe (Markdown::copy reads only
selection.start..selection.end) is unaffected by the reversed flag. -/
theorem selection_range_invariant :
    (Selection.defaultSel.start ≤ Selection.defaultSel.stop)
    ∧ (∀ (t : RenderedText) (si cc : Nat) (sel : Selection), WellFormedText t →
        pressSelection t si cc = some sel → sel.start ≤ sel.stop)
    ∧ (∀ (s : Selection) (h : Nat), s.start ≤ s.stop →
        (s.set_head h).start ≤ (s.set_head h).stop)
    ∧ (∀ s : Selection, s.start ≤ s.stop →
        (releaseSelection s).start ≤ (releaseSelection s).stop)
    ∧ (∀ (s1 s2 : Selection) (t : RenderedText), s1.start = s2.start →
        s1.stop = s2.stop → Markdown.copyText s1 t = Markdown.copyText s2 t) := by
  refine ⟨le_refl 0, fun t si cc sel hw h => press_ordered t si cc sel hw h,
    fun s h _ => set_head_ordered s h, fun s h => h, ?_⟩
  intro s1 s2 t h1 h2
  unfold Markdown.copyText
  rw [h1, h2]

/-! ## Witnesses for the theorems with hypotheses -/

/-- Witness for C1: from the in-flight state, the single append b leaves
the spawn count and task untouched and sets only the flag; completion then
spawns exactly one task over the source ab. -/
theorem single_flight_reparse_witness :
    (([String.toList ("b")].foldl Markdown.append inFlightState).spawnCount
      = inFlightState.spawnCount)
    ∧ ([String.toList ("b")].foldl Markdown.append inFlightState).pendingParse
      = some { text := String.toList ("a") }
    ∧ ([String.toList ("b")].foldl Markdown.append inFlightState).shouldReparse = true
    ∧ (Markdown.complete (fun _ => [])
        ([String.toList ("b")].foldl Markdown.append inFlightState)).spawnCount
      = inFlightState.spawnCount + 1
    ∧ (Markdown.complete (fun _ => [])
        ([String.toList ("b")].foldl Markdown.append inFlightState)).pendingParse
      = some { text := String.toList ("a") ++ [String.toList ("b")].flatten }
    ∧ (Markdown.complete (fun _ => [])
        ([String.toList ("b")].foldl Markdown.append inFlightState)).shouldReparse = false
    ∧ Markdown.parse inFlightState = { inFlightState with shouldReparse := true } := by
  have H := single_flight_reparse inFlightState { text := String.toList ("a") }
    [String.toList ("b")] (fun _ => []) rfl (by decide) (by decide)
  exact ⟨H.1, H.2.1, H.2.2.1, H.2.2.2.1, H.2.2.2.2.1, H.2.2.2.2.2.1,
    H.2.2.2.2.2.2 inFlightState (by decide) rfl⟩

/-- Witness for C5: the theorem applied at concrete inputs — a double click
at offset 8 of sampleText, a set_head step, a release, and two selections
differing only in reversed copying the same text. -/
theorem selection_range_invariant_witness :
    (({ start := 6, stop := 11, reversed := false, pending := true } : Selection).start
      ≤ ({ start := 6, stop := 11, reversed := false, pending := true } : Selection).stop)
    ∧ ((({ start := 10, stop := 10, reversed := false, pending := true } : Selection).set_head
        4).start
      ≤ (({ start := 10, stop := 10, reversed := false, pending := true } : Selection).set_head
        4).stop)
    ∧ ((releaseSelection { start := 2, stop := 5, reversed := true, pending := true }).start
      ≤ (releaseSelection { start := 2, stop := 5, reversed := true, pending := true }).stop)
    ∧ Markdown.copyText { start := 1, stop := 4, reversed := true, pending := false }
        sampleText
      = Markdown.copyText { start := 1, stop := 4, reversed := false, pending := false }
        sampleText :=
  ⟨selection_range_invariant.2.1 sampleText 8 2
      { start := 6, stop := 11, reversed := false, pending := true }
      (by
        intro line hl
        simp only [sampleText, List.mem_singleton] at hl
        subst hl
        refine ⟨by simp [sampleLine], by simp [sampleLine, SortedMappings],
          by simp [sampleLine, GapBounded], ?_⟩
        intro m hm
        simp only [sampleLine, List.mem_singleton] at hm
        subst hm
        simp [sampleLine]) rfl,
   selection_range_invariant.2.2.1
      { start := 10, stop := 10, reversed := false, pending := true } 4 (by decide),
   selection_range_invariant.2.2.2.1
      { start := 2, stop := 5, reversed := true, pending := true } (by decide),
   selection_range_invariant.2.2.2.2
      { start := 1, stop := 4, reversed := true, pending := false }
      { start := 1, stop := 4, reversed := false, pending := false } sampleText rfl rfl⟩

/-- Witness for C6: trimming the builder whose pending line is x plus
newline drops the newline, shortens the last run to length 1 and steps the
source cursor back to 1. -/
theorem code_block_trailing_newline_trim_witness :
    ∃ b2, pendingNewlineBuilder.trim_trailing_newline = some b2
      ∧ b2.pending_line.text = pendingNewlineBuilder.pending_line.text.dropLast
      ∧ b2.pending_line.text.length + 1 = pendingNewlineBuilder.pending_line.text.length
      ∧ b2.pending_line.runs.getLast?
        = some { len := 2 - 1, styleStack := [], highlightId := none }
      ∧ b2.current_source_index = pendingNewlineBuilder.current_source_index - 1 :=
  code_block_trailing_newline_trim.1 pendingNewlineBuilder
    { len := 2, styleStack := [], highlightId := none } rfl rfl (by decide) (by decide)

/-- Witness for C7: pushing a default-styled div for the full range 0..5 of
ruleEvents suppresses both margins. -/
theorem boundary_margin_suppression_witness :
    ∃ d2, ruleBuilder.div_stack.head? = some d2
      ∧ (((0, 5) : SrcRange).1 = 0 → d2.margin_top = some (Length.px 0))
      ∧ (((0, 5) : SrcRange).2 = markdownEnd ruleEvents →
          d2.margin_bottom = some (Length.rems 0))
      ∧ (((0, 5) : SrcRange).1 ≠ 0 → d2.margin_top = ({} : Div).margin_top)
      ∧ (((0, 5) : SrcRange).2 ≠ markdownEnd ruleEvents →
          d2.margin_bottom = ({} : Div).margin_bottom) :=
  boundary_margin_suppression ruleEvents MarkdownElementBuilder.new ruleBuilder {}
    (0, 5) rfl

/-- Witness for C9: parse on an emptied state is the identity, and reset to
the empty source from the non-empty in-flight state leaves the default
document with no task and no new spawn. -/
theorem empty_source_short_circuit_witness :
    Markdown.parse { inFlightState with source := [] }
      = { inFlightState with source := [] }
    ∧ (Markdown.reset inFlightState []).parsedMarkdown = ParsedMarkdown.defaultPM
    ∧ (Markdown.reset inFlightState []).pendingParse = none
    ∧ (Markdown.reset inFlightState []).spawnCount = inFlightState.spawnCount :=
  ⟨empty_source_short_circuit.1 { inFlightState with source := [] } rfl,
   (empty_source_short_circuit.2.2 inFlightState (by decide)).1,
   (empty_source_short_circuit.2.2 inFlightState (by decide)).2.1,
   (empty_source_short_circuit.2.2 inFlightState (by decide)).2.2⟩

/-- Witness for C10: the build over mixedLinkEvents records exactly the
link that started outside the code block, and Start/End link events hitting
the one-deep code-block builder leave it unchanged. -/
theorem links_in_code_blocks_ignored_witness :
    mixedLinkText.links = linksOutsideCodeBlocks 0 mixedLinkEvents
    ∧ processEvent {} (fun _ => none) [] 0 inCodeBlockBuilder
        ((1, 2), MdEvent.start (MarkdownTag.link ("w"))) = some inCodeBlockBuilder
    ∧ processEvent {} (fun _ => none) [] 0 inCodeBlockBuilder
        ((1, 2), MdEvent.stop MarkdownTagEnd.link) = some inCodeBlockBuilder :=
  ⟨links_in_code_blocks_ignored.1 {} (fun _ => none) [] mixedLinkEvents mixedLinkText rfl,
   (links_in_code_blocks_ignored.2 {} (fun _ => none) [] 0 inCodeBlockBuilder (1, 2) ("w")
      (by simp [inCodeBlockBuilder])).1,
   (links_in_code_blocks_ignored.2 {} (fun _ => none) [] 0 inCodeBlockBuilder (1, 2) ("w")
      (by simp [inCodeBlockBuilder])).2⟩

end MarkdownCore
